import Mathlib

/-!
# Pull status tracker (`pkg/image/docker/pull_status.go`)

A shallow embedding of the docker pull-status tracker and proofs about it.

Modelling conventions:

* Go `int` / `int64` values are `Int`: the tracker only copies and compares
  them (`int64(int)` is lossless), it never does arithmetic on them.
* A Go `map[LayerID]V` is a function `LayerID → Option V`; `none` is an absent key.
* The `*progress.Manual` values stored in the two counter maps are modelled by value.
  Every pointer stored by `onEvent` is a fresh `&progress.Manual{}` kept in exactly
  one map entry, so no two entries alias and no stored pointer is nil.
  The namespace `Mem` holds a second, reference-level model with an explicit heap
  (addresses of counters, slice headers over backing arrays); `Mem.onEvents_refines`
  shows that it computes, read as a value, what this value-level model computes.
* A nil `*progress.Manual` (the result of looking up an absent key) is `none`;
  dereferencing it is a run-time panic, modelled by `onEvent` returning `none`.
* The slice `layers` is `Option (List LayerID)`: `none` is the nil slice,
  `some []` the allocated empty slice made by `make([]LayerID, 0)`.
* The value-level model leaves the mutex out: calls are sequential state transformers.
  `Mem.Sync` and the `Mem.Locked` methods add the mutex as state, with a ghost flag that
  records an access to tracker state made without holding the lock.
-/

namespace Docker

/-! ## Data model -/

/-- The Go type `PullPhase`, an `int`. -/
abbrev PullPhase := Int

abbrev UnknownPhase : PullPhase := 0
abbrev WaitingPhase : PullPhase := 1
abbrev PullingFsPhase : PullPhase := 2
abbrev DownloadingPhase : PullPhase := 3
abbrev DownloadCompletePhase : PullPhase := 4
abbrev ExtractingPhase : PullPhase := 5
abbrev VerifyingChecksumPhase : PullPhase := 6
abbrev AlreadyExistsPhase : PullPhase := 7
abbrev PullCompletePhase : PullPhase := 8

/-- The Go type `LayerID`, a `string`. -/
abbrev LayerID := String

/-- The anonymous struct type of `pullEvent.ProgressDetail`. -/
structure progressDetail where
  Current : Int := 0
  Total : Int := 0
deriving DecidableEq

/-- The Go struct `pullEvent`. -/
structure pullEvent where
  ID : String
  Status : String
  Error : String := ""
  Progress : String := ""
  ProgressDetail : progressDetail := {}
deriving DecidableEq

/-- Modelled from the spec: `progress.Manual` of the external module
`github.com/wagoodman/go-progress`, which is not under src/. The spec's progress counter is
"a mutable pair `(current, total)` plus a completion flag"; `N` and `Total` are the two
fields `onEvent` writes, `Completed` stands for `Err == ErrCompleted`.
`&progress.Manual{}` is the default value `{}`. -/
structure Manual where
  N : Int := 0
  Total : Int := 0
  Completed : Bool := false
deriving DecidableEq

/-- Modelled from the spec: `(*progress.Manual).SetCompleted` of go-progress, not under src/.
It forces the counter "to the completed state"; the library also adjusts the total of a
counter that has progress but no size (`if p.N > 0 && p.Total <= 0 { p.Total = p.N }`). -/
def Manual.SetCompleted (m : Manual) : Manual :=
  if 0 < m.N ∧ m.Total ≤ 0 then
    { m with Completed := true, Total := m.N }
  else
    { m with Completed := true }

/-- The Go struct `LayerState`. A field holds the `*progress.Manual` found in the map, wrapped
in the interface `progress.Progressable`; `none` is the nil pointer of an absent key. -/
structure LayerState where
  Phase : PullPhase
  PhaseProgress : Option Manual
  DownloadProgress : Option Manual
deriving DecidableEq

/-- Modelled from the spec: reading `Current()` through `progress.Progressable` (go-progress,
not under src/). It returns the counter's `N`; on a nil `*Manual` the read dereferences nil
and panics (`none`). -/
def Progressable.Current (c : Option Manual) : Option Int := c.map (fun m => m.N)

/-- Modelled from the spec: reading `Size()` through `progress.Progressable` (go-progress,
not under src/). It returns the counter's `Total`; `none` is the nil-pointer panic. -/
def Progressable.Size (c : Option Manual) : Option Int := c.map (fun m => m.Total)

/-- Modelled from the spec: whether a counter read through `progress.Progressable`
(go-progress, not under src/) reports completed; `none` is the nil-pointer panic. -/
def Progressable.Completed (c : Option Manual) : Option Bool := c.map (fun m => m.Completed)

/-- The Go struct `PullStatus` (without its mutex). -/
structure PullStatus where
  phaseProgress : LayerID → Option Manual
  downloadProgress : LayerID → Option Manual
  phase : LayerID → Option PullPhase
  layers : Option (List LayerID)
  complete : Bool

/-! ## Operations -/

/-- The constructor `newPullStatus`: three empty maps, a nil layer slice, `complete` false. -/
def newPullStatus : PullStatus :=
  { phaseProgress := fun _ => none
    downloadProgress := fun _ => none
    phase := fun _ => none
    layers := none
    complete := false }

/-- The method `(*PullStatus).Complete`. -/
def PullStatus.Complete (p : PullStatus) : Bool := p.complete

/-- The method `(*PullStatus).Layers`: `append([]LayerID{}, p.layers...)`, a non-nil copy. -/
def PullStatus.Layers (p : PullStatus) : List LayerID :=
  [] ++ p.layers.getD []

/-- The method `(*PullStatus).Current`. A lookup of an absent key in `p.phase` gives the zero value of
`PullPhase`, a lookup in a counter map gives the nil pointer. -/
def PullStatus.Current (p : PullStatus) (layer : LayerID) : LayerState :=
  { Phase := (p.phase layer).getD 0
    PhaseProgress := p.phaseProgress layer
    DownloadProgress := p.downloadProgress layer }

/-- The function `parsePhase`: a switch on the status label. -/
def parsePhase (inputStr : String) : PullPhase :=
  match inputStr with
  | "Waiting" => WaitingPhase
  | "Pulling fs layer" => PullingFsPhase
  | "Downloading" => DownloadingPhase
  | "Download complete" => DownloadCompletePhase
  | "Extracting" => ExtractingPhase
  | "Verifying Checksum" => VerifyingChecksumPhase
  | "Already exists" => AlreadyExistsPhase
  | "Pull complete" => PullCompletePhase
  | _ => UnknownPhase

/-- The second half of `onEvent` (source lines 102-122, "capture latest event info"), run on
the tracker as it is after the registration block. -/
def PullStatus.captureLatest (p : PullStatus) (event : pullEvent) : Option PullStatus :=
  let layer : LayerID := event.ID
  let currentPhase := parsePhase event.Status
  let p1 : PullStatus := { p with phase := Function.update p.phase layer (some currentPhase) }
  match p1.phaseProgress layer with
  | none => none
  | some phaseProgress =>
    let phaseProgress' : Manual :=
      if currentPhase ≥ AlreadyExistsPhase then
        phaseProgress.SetCompleted
      else
        { phaseProgress with
          N := event.ProgressDetail.Current, Total := event.ProgressDetail.Total }
    let p2 : PullStatus :=
      { p1 with phaseProgress := Function.update p1.phaseProgress layer (some phaseProgress') }
    if currentPhase = DownloadingPhase then
      match p2.downloadProgress layer with
      | none => none
      | some dl =>
        let dl' : Manual :=
          { dl with N := event.ProgressDetail.Current, Total := event.ProgressDetail.Total }
        some { p2 with downloadProgress := Function.update p2.downloadProgress layer (some dl') }
    else if currentPhase ≥ DownloadCompletePhase then
      match p2.downloadProgress layer with
      | none => none
      | some dl =>
        let dl' : Manual := ({ dl with N := dl.Total } : Manual).SetCompleted
        some { p2 with downloadProgress := Function.update p2.downloadProgress layer (some dl') }
    else
      some p2

/-- The method `(*PullStatus).onEvent`. The result is the tracker after the call; `none` is a nil-pointer
panic (possible only when a counter is missing from one of the maps). -/
def PullStatus.onEvent (p : PullStatus) (event : pullEvent) : Option PullStatus :=
  let layer : LayerID := event.ID
  if layer = "" then
    some p
  else
    match p.phaseProgress layer with
    | none =>
      match p.layers with
      | none => some { p with layers := some [] }
      | some ls =>
        PullStatus.captureLatest
          { p with
            phaseProgress := Function.update p.phaseProgress layer (some {})
            downloadProgress := Function.update p.downloadProgress layer (some {})
            layers := some (ls ++ [layer]) }
          event
    | some _ => PullStatus.captureLatest p event

/-- A pull session: the events of a stream ingested one after the other, in delivery order. -/
def PullStatus.onEvents (p : PullStatus) : List pullEvent → Option PullStatus
  | [] => some p
  | event :: rest => (p.onEvent event).bind (fun p' => p'.onEvents rest)

/-- The event is dropped by the "ignore the first layer as it's the image id" branch:
its id has no counter yet and the layer slice is still nil. -/
def discardedAsImageID (p : PullStatus) (event : pullEvent) : Prop :=
  p.phaseProgress event.ID = none ∧ p.layers = none

instance (p : PullStatus) (event : pullEvent) : Decidable (discardedAsImageID p event) :=
  inferInstanceAs (Decidable (p.phaseProgress event.ID = none ∧ p.layers = none))

/-- The event is tracked: it has a non-empty id and is not dropped as the image id. -/
def tracked (p : PullStatus) (event : pullEvent) : Prop :=
  event.ID ≠ "" ∧ ¬ discardedAsImageID p event

instance (p : PullStatus) (event : pullEvent) : Decidable (tracked p event) :=
  inferInstanceAs (Decidable (event.ID ≠ "" ∧ ¬ discardedAsImageID p event))

/-- Keep the first occurrence of every element of a list, in order. -/
def keepFirst : List LayerID → List LayerID
  | [] => []
  | x :: xs => x :: (keepFirst xs).filter (fun y => y ≠ x)

/-- The non-empty ids of a list of events, in delivery order. -/
def nonEmptyIDs (events : List pullEvent) : List LayerID :=
  (events.map (fun e => e.ID)).filter (fun i => i ≠ "")

/-- The phase-progress counter after lines 107-112, as a function of the classified phase,
the event's progress detail and the counter before. -/
def phaseProgressAfter (ph : PullPhase) (d : progressDetail) (m : Manual) : Manual :=
  if ph ≥ AlreadyExistsPhase then m.SetCompleted else { m with N := d.Current, Total := d.Total }

/-- The download-progress counter after lines 114-122, as a function of the classified phase,
the event's progress detail and the counter before. -/
def downloadProgressAfter (ph : PullPhase) (d : progressDetail) (m : Manual) : Manual :=
  if ph = DownloadingPhase then { m with N := d.Current, Total := d.Total }
  else if ph ≥ DownloadCompletePhase then ({ m with N := m.Total } : Manual).SetCompleted
  else m

/-- The tracker left by lines 102-122 when the layer's phase-progress counter is `pp`. -/
def captured (p : PullStatus) (event : pullEvent) (pp : Manual) : PullStatus :=
  { phase := Function.update p.phase event.ID (some (parsePhase event.Status))
    phaseProgress := Function.update p.phaseProgress event.ID
      (some (phaseProgressAfter (parsePhase event.Status) event.ProgressDetail pp))
    downloadProgress := Function.update p.downloadProgress event.ID
      ((p.downloadProgress event.ID).map
        (downloadProgressAfter (parsePhase event.Status) event.ProgressDetail))
    layers := p.layers
    complete := p.complete }

/-- The tracker left by the registration block (lines 96-99) for a new layer. -/
def registered (p : PullStatus) (layer : LayerID) (ls : List LayerID) : PullStatus :=
  { p with
    phaseProgress := Function.update p.phaseProgress layer (some {})
    downloadProgress := Function.update p.downloadProgress layer (some {})
    layers := some (ls ++ [layer]) }

/-- The three maps have the same keys, namely the elements of the layer list, and the layer
list has no duplicates. -/
def KeysAgree (p : PullStatus) : Prop :=
  (∀ l, (p.phase l).isSome ↔ l ∈ p.Layers) ∧
  (∀ l, (p.phaseProgress l).isSome ↔ l ∈ p.Layers) ∧
  (∀ l, (p.downloadProgress l).isSome ↔ l ∈ p.Layers) ∧
  p.Layers.Nodup

/-- The layer list after an event with the given id, once the list is allocated: the id is
appended unless it is empty or already listed. -/
def addLayer (ls : List LayerID) (id : LayerID) : List LayerID :=
  if id = "" ∨ id ∈ ls then ls else ls ++ [id]

/-! ## Sample events and trackers -/

/-- An event with the given id, status label and progress detail. -/
def ev (id status : String) (c t : Int) : pullEvent :=
  { ID := id, Status := status, ProgressDetail := { Current := c, Total := t } }

/-- The tracker after the image id "img1" and a complete pull of the layer "L1". -/
def pulledL1 : PullStatus :=
  (newPullStatus.onEvents
    [ev "img1" "Pulling from library/alpine" 0 0, ev "L1" "Pulling fs layer" 0 0,
     ev "L1" "Downloading" 50 100, ev "L1" "Download complete" 0 0,
     ev "L1" "Pull complete" 0 0]).getD newPullStatus

/-! ## Reference-level model

The same tracker with its heap objects made explicit: the `*progress.Manual` values are
addresses into a heap of counters, and a `[]LayerID` slice is a header (backing array, length,
capacity) over a heap of arrays. It is used where a statement is about sharing of storage
between the tracker and the values its read operations return.
-/

namespace Mem

/-- A Go slice header of type `[]LayerID`. The address of a heap object, here and below, is
its index in the heap, a natural number. -/
structure Slice where
  array : Nat
  len : Nat
  cap : Nat
deriving DecidableEq

/-- The heap: the allocated `progress.Manual` objects and the backing arrays of the
`[]LayerID` slices. A backing array is the list of its cells, as many as its capacity. -/
structure Heap where
  manuals : List Manual
  arrays : List (List LayerID)
deriving DecidableEq

/-- The Go struct `LayerState`, its two interface fields holding the `*progress.Manual`
pointers themselves (`none` is nil). -/
structure LayerState where
  Phase : PullPhase
  PhaseProgress : Option Nat
  DownloadProgress : Option Nat
deriving DecidableEq

/-- The Go struct `PullStatus` (without its mutex), with pointers as map values and a slice
header for `layers` (`none` is the nil slice). -/
structure PullStatus where
  phaseProgress : LayerID → Option Nat
  downloadProgress : LayerID → Option Nat
  phase : LayerID → Option PullPhase
  layers : Option Slice
  complete : Bool

/-- The elements `s[0], ..., s[len-1]` of a slice. -/
def Heap.elems (h : Heap) (s : Slice) : List LayerID :=
  (h.arrays.getD s.array []).take s.len

/-- The elements of a possibly nil slice. -/
def Heap.elemsOf (h : Heap) (s : Option Slice) : List LayerID :=
  match s with
  | none => []
  | some s => h.elems s

/-- An empty non-nil slice, `make([]LayerID, 0)` or `[]LayerID{}`: length and capacity 0. Its
array has no cell, so the model gives it an array of its own. -/
def Heap.makeSlice (h : Heap) : Heap × Slice :=
  ({ h with arrays := h.arrays ++ [[]] }, { array := h.arrays.length, len := 0, cap := 0 })

/-- The built-in `append(s, xs...)`: the elements are written in place when they fit in the
capacity of `s`; otherwise a new array is allocated, with `extra n` spare cells beyond the
`n` needed ones (the growth policy of the Go runtime, a parameter), and filled with the
elements of `s` followed by `xs`. -/
def Heap.append (extra : Nat → Nat) (h : Heap) (s : Slice) (xs : List LayerID) :
    Heap × Slice :=
  if s.len + xs.length ≤ s.cap then
    let arr := h.arrays.getD s.array []
    ({ h with
        arrays := h.arrays.set s.array
          (arr.take s.len ++ xs ++ arr.drop (s.len + xs.length)) },
      { s with len := s.len + xs.length })
  else
    let n := s.len + xs.length
    ({ h with arrays := h.arrays ++ [h.elems s ++ xs ++ List.replicate (extra n) ""] },
      { array := h.arrays.length, len := n, cap := n + extra n })

/-- The assignment `s[i] = v` by a holder of the slice `s`; `none` is the index panic. -/
def Heap.store (h : Heap) (s : Slice) (i : Nat) (v : LayerID) : Option Heap :=
  if i < s.len then
    some { h with arrays := h.arrays.set s.array ((h.arrays.getD s.array []).set i v) }
  else
    none

/-- The allocation `&progress.Manual{}`. -/
def Heap.newManual (h : Heap) : Heap × Nat :=
  ({ h with manuals := h.manuals ++ [{}] }, h.manuals.length)

/-- Reading the counter behind a `*progress.Manual`; `none` is the nil-pointer panic. -/
def Heap.load (h : Heap) (a : Option Nat) : Option Manual :=
  a.bind (fun a => h.manuals.get? a)

/-- Updating the counter behind a `*progress.Manual` in place; `none` is the nil-pointer
panic. -/
def Heap.modify (h : Heap) (a : Option Nat) (f : Manual → Manual) : Option Heap :=
  match a with
  | none => none
  | some a => (h.manuals.get? a).map (fun m => { h with manuals := h.manuals.set a (f m) })

/-- The constructor `newPullStatus`. -/
def newPullStatus : PullStatus :=
  { phaseProgress := fun _ => none
    downloadProgress := fun _ => none
    phase := fun _ => none
    layers := none
    complete := false }

/-- The method `(*PullStatus).Layers`: `append([]LayerID{}, p.layers...)`. -/
def Layers (extra : Nat → Nat) (h : Heap) (p : PullStatus) : Heap × Slice :=
  let lit := h.makeSlice
  lit.1.append extra lit.2 (lit.1.elemsOf p.layers)

/-- The method `(*PullStatus).Current`: the phase and the two pointers found in the maps. -/
def Current (p : PullStatus) (layer : LayerID) : LayerState :=
  { Phase := (p.phase layer).getD 0
    PhaseProgress := p.phaseProgress layer
    DownloadProgress := p.downloadProgress layer }

/-- The second half of `onEvent` (source lines 102-122). -/
def captureLatest (h : Heap) (p : PullStatus) (event : pullEvent) :
    Option (Heap × PullStatus) :=
  let layer : LayerID := event.ID
  let currentPhase := parsePhase event.Status
  let p1 : PullStatus := { p with phase := Function.update p.phase layer (some currentPhase) }
  let phaseProgress := p1.phaseProgress layer
  let h1 : Option Heap :=
    if currentPhase ≥ AlreadyExistsPhase then
      h.modify phaseProgress (fun m => m.SetCompleted)
    else
      h.modify phaseProgress (fun m =>
        { m with N := event.ProgressDetail.Current, Total := event.ProgressDetail.Total })
  h1.bind (fun h1 =>
    if currentPhase = DownloadingPhase then
      let dl := p1.downloadProgress layer
      (h1.modify dl (fun m =>
        { m with N := event.ProgressDetail.Current, Total := event.ProgressDetail.Total })).map
        (fun h2 => (h2, p1))
    else if currentPhase ≥ DownloadCompletePhase then
      let dl := p1.downloadProgress layer
      (h1.modify dl (fun m => ({ m with N := m.Total } : Manual).SetCompleted)).map
        (fun h2 => (h2, p1))
    else
      some (h1, p1))

/-- The method `(*PullStatus).onEvent`; `none` is a nil-pointer panic. -/
def onEvent (extra : Nat → Nat) (h : Heap) (p : PullStatus) (event : pullEvent) :
    Option (Heap × PullStatus) :=
  let layer : LayerID := event.ID
  if layer = "" then
    some (h, p)
  else
    match p.phaseProgress layer with
    | none =>
      match p.layers with
      | none =>
        let made := h.makeSlice
        some (made.1, { p with layers := some made.2 })
      | some s =>
        let m1 := h.newManual
        let m2 := m1.1.newManual
        let app := m2.1.append extra s [layer]
        captureLatest app.1
          { p with
            phaseProgress := Function.update p.phaseProgress layer (some m1.2)
            downloadProgress := Function.update p.downloadProgress layer (some m2.2)
            layers := some app.2 }
          event
    | some _ => captureLatest h p event

/-- A pull session at the reference level. -/
def onEvents (extra : Nat → Nat) (h : Heap) (p : PullStatus) :
    List pullEvent → Option (Heap × PullStatus)
  | [] => some (h, p)
  | event :: rest => (onEvent extra h p event).bind (fun hp => onEvents extra hp.1 hp.2 rest)

/-- The tracker's slice lies in the heap: its array is allocated and has as many cells as the
slice's capacity, and the length is within the capacity. -/
def SliceOK (h : Heap) (s : Slice) : Prop :=
  s.array < h.arrays.length ∧ s.len ≤ s.cap ∧ (h.arrays.getD s.array []).length = s.cap

/-- The tracker read as a value: every pointer replaced by the counter it points to and the
slice by the list of its elements. -/
def abs (h : Heap) (p : PullStatus) : Docker.PullStatus :=
  { phaseProgress := fun l => h.load (p.phaseProgress l)
    downloadProgress := fun l => h.load (p.downloadProgress l)
    phase := p.phase
    layers := p.layers.map h.elems
    complete := p.complete }

instance (h : Heap) (s : Slice) : Decidable (SliceOK h s) :=
  inferInstanceAs (Decidable (s.array < h.arrays.length ∧ s.len ≤ s.cap ∧
    (h.arrays.getD s.array []).length = s.cap))

/-- The tracker's layer slice, when it is not nil, lies in the heap. -/
def LayersOK (h : Heap) (p : PullStatus) : Prop :=
  ∀ s, p.layers = some s → SliceOK h s

/-- The pointers kept in the two counter maps are allocated and pairwise distinct: no counter
is shared between two layers or between the two maps. -/
def PointersOK (h : Heap) (p : PullStatus) : Prop :=
  (∀ l a, p.phaseProgress l = some a → a < h.manuals.length) ∧
  (∀ l a, p.downloadProgress l = some a → a < h.manuals.length) ∧
  (∀ l l' a, p.phaseProgress l = some a → p.phaseProgress l' = some a → l = l') ∧
  (∀ l l' a, p.downloadProgress l = some a → p.downloadProgress l' = some a → l = l') ∧
  (∀ l l' a, p.phaseProgress l = some a → p.downloadProgress l' ≠ some a)

/-- The empty heap. -/
def emptyHeap : Heap := { manuals := [], arrays := [] }

/-- The heap and tracker after the image id "img1" and a "Waiting" event that registers the
layer "L1", with a runtime that doubles the needed capacity when it grows a slice. -/
def registeredL1 : Heap × PullStatus :=
  (onEvents (fun n => n) emptyHeap newPullStatus
    [ev "img1" "Pulling from library/alpine" 0 0, ev "L1" "Waiting" 0 0]).getD
    (emptyHeap, newPullStatus)

/-- The mutex `p.lock` with a ghost flag. `held` is the goroutine that holds the lock, if
any; `raced` records that some goroutine read or wrote tracker state without holding it. -/
structure Sync where
  held : Option Nat
  raced : Bool
deriving DecidableEq

/-- The call `p.lock.Lock()` by goroutine `g`: it takes a free lock; on a held lock the
caller is blocked (`none`), also when it is the holder itself (the mutex is not reentrant). -/
def Sync.Lock (s : Sync) (g : Nat) : Option Sync :=
  match s.held with
  | none => some { s with held := some g }
  | some _ => none

/-- The call `p.lock.Unlock()`: it frees a held lock; unlocking a free mutex is a fatal
error (`none`). -/
def Sync.Unlock (s : Sync) : Option Sync :=
  match s.held with
  | none => none
  | some _ => some { s with held := none }

/-- A read or write of tracker state by goroutine `g`: the ghost flag is raised when `g` does
not hold the lock. -/
def Sync.touch (s : Sync) (g : Nat) : Sync :=
  { s with raced := s.raced || decide (s.held ≠ some g) }

namespace Locked

/-- The method `(*PullStatus).Complete` called by goroutine `g`, with its accesses:
`return p.complete`, without any call on `p.lock`. -/
def Complete (g : Nat) (s : Sync) (p : PullStatus) : Bool × Sync :=
  (p.complete, s.touch g)

/-- The method `(*PullStatus).Layers` called by goroutine `g`: `p.lock.Lock()`, the deferred
`p.lock.Unlock()`, and in between the read of `p.layers` for the copy. -/
def Layers (extra : Nat → Nat) (g : Nat) (s : Sync) (h : Heap) (p : PullStatus) :
    Option ((Heap × Slice) × Sync) :=
  (s.Lock g).bind (fun s1 =>
    ((s1.touch g).Unlock).map (fun s2 => (Mem.Layers extra h p, s2)))

/-- The method `(*PullStatus).Current` called by goroutine `g`: `p.lock.Lock()`, the deferred
`p.lock.Unlock()`, and in between the three map lookups. -/
def Current (g : Nat) (s : Sync) (p : PullStatus) (layer : LayerID) :
    Option (LayerState × Sync) :=
  (s.Lock g).bind (fun s1 =>
    ((((s1.touch g).touch g).touch g).Unlock).map (fun s2 => (Mem.Current p layer, s2)))

/-- The method `(*PullStatus).onEvent` called by goroutine `g`: `p.lock.Lock()`, the deferred
`p.lock.Unlock()` (it runs on every return and on a panic, the inner `none`), and in between
all the reads and writes of the body. -/
def onEvent (extra : Nat → Nat) (g : Nat) (s : Sync) (h : Heap) (p : PullStatus)
    (event : pullEvent) : Option (Option (Heap × PullStatus) × Sync) :=
  (s.Lock g).bind (fun s1 =>
    ((s1.touch g).Unlock).map (fun s2 => (Mem.onEvent extra h p event, s2)))

end Locked

end Mem

/-! ## Lemmas on the counters -/

theorem SetCompleted_completed (m : Manual) : m.SetCompleted.Completed = true := by
  unfold Manual.SetCompleted; split <;> rfl

theorem SetCompleted_idem (m : Manual) : m.SetCompleted.SetCompleted = m.SetCompleted := by
  unfold Manual.SetCompleted
  split <;> simp

theorem phaseProgressAfter_idem (ph : PullPhase) (d : progressDetail) (m : Manual) :
    phaseProgressAfter ph d (phaseProgressAfter ph d m) = phaseProgressAfter ph d m := by
  unfold phaseProgressAfter
  split
  · exact SetCompleted_idem m
  · rfl

theorem SetCompleted_of_eq (m : Manual) (h : m.N = m.Total) :
    m.SetCompleted = { m with Completed := true } := by
  unfold Manual.SetCompleted
  rw [if_neg]
  omega

theorem downloadProgressAfter_idem (ph : PullPhase) (d : progressDetail) (m : Manual) :
    downloadProgressAfter ph d (downloadProgressAfter ph d m) = downloadProgressAfter ph d m := by
  unfold downloadProgressAfter
  split
  · rfl
  · split
    · rw [SetCompleted_of_eq _ rfl, SetCompleted_of_eq _ rfl]
    · rfl

/-! ## Lemmas on `onEvent` -/

theorem captureLatest_eq_some_iff (p p' : PullStatus) (e : pullEvent) :
    p.captureLatest e = some p' ↔
      ∃ pp, p.phaseProgress e.ID = some pp ∧
        ((parsePhase e.Status = DownloadingPhase ∨ parsePhase e.Status ≥ DownloadCompletePhase) →
          (p.downloadProgress e.ID).isSome) ∧
        p' = captured p e pp := by
  cases hpp : p.phaseProgress e.ID with
  | none => simp [PullStatus.captureLatest, hpp]
  | some pp =>
    cases hdl : p.downloadProgress e.ID with
    | none =>
      by_cases h3 : parsePhase e.Status = DownloadingPhase
      · simp [PullStatus.captureLatest, hpp, h3, hdl]
      · by_cases h4 : parsePhase e.Status ≥ DownloadCompletePhase
        · simp [PullStatus.captureLatest, hpp, h3, h4, hdl]
        · have hu : Function.update p.downloadProgress e.ID none = p.downloadProgress := by
            rw [← hdl]; exact Function.update_eq_self _ _
          simp [PullStatus.captureLatest, captured, phaseProgressAfter, hpp, h3, h4, hdl, hu]
          exact eq_comm
    | some dl =>
      by_cases h3 : parsePhase e.Status = DownloadingPhase
      · simp [PullStatus.captureLatest, captured, phaseProgressAfter, downloadProgressAfter,
          hpp, h3, hdl, eq_comm]
      · by_cases h4 : parsePhase e.Status ≥ DownloadCompletePhase
        · simp [PullStatus.captureLatest, captured, phaseProgressAfter, downloadProgressAfter,
            hpp, h3, h4, hdl, eq_comm]
        · have hu : Function.update p.downloadProgress e.ID (some dl) = p.downloadProgress := by
            rw [← hdl]; exact Function.update_eq_self _ _
          simp [PullStatus.captureLatest, captured, phaseProgressAfter, downloadProgressAfter,
            hpp, h3, h4, hdl, hu]
          exact eq_comm

theorem onEvent_empty_id_aux (p : PullStatus) (e : pullEvent) (h : e.ID = "") :
    p.onEvent e = some p := by
  simp [PullStatus.onEvent, h]

theorem onEvent_first (p : PullStatus) (e : pullEvent) (h : e.ID ≠ "")
    (hpp : p.phaseProgress e.ID = none) (hl : p.layers = none) :
    p.onEvent e = some { p with layers := some [] } := by
  simp [PullStatus.onEvent, h, hpp, hl]

theorem registered_phaseProgress (p : PullStatus) (l : LayerID) (ls : List LayerID) :
    (registered p l ls).phaseProgress l = some {} := by
  simp [registered]

theorem registered_downloadProgress (p : PullStatus) (l : LayerID) (ls : List LayerID) :
    (registered p l ls).downloadProgress l = some {} := by
  simp [registered]

theorem onEvent_new (p : PullStatus) (e : pullEvent) (ls : List LayerID) (h : e.ID ≠ "")
    (hpp : p.phaseProgress e.ID = none) (hl : p.layers = some ls) :
    p.onEvent e = some (captured (registered p e.ID ls) e {}) := by
  have h1 : p.onEvent e = (registered p e.ID ls).captureLatest e := by
    simp [PullStatus.onEvent, h, hpp, hl, registered]
  rw [h1, captureLatest_eq_some_iff]
  exact ⟨{}, registered_phaseProgress p e.ID ls,
    fun _ => by rw [registered_downloadProgress]; rfl, rfl⟩

theorem onEvent_known (p : PullStatus) (e : pullEvent) (pp : Manual) (h : e.ID ≠ "")
    (hpp : p.phaseProgress e.ID = some pp) :
    p.onEvent e = p.captureLatest e := by
  simp [PullStatus.onEvent, h, hpp]

/-- What a tracked event leaves behind: the registration block either keeps the tracker or
registers the layer, and lines 102-122 then run on the result `q`. -/
theorem onEvent_tracked (p p' : PullStatus) (e : pullEvent) (ht : tracked p e)
    (h : p.onEvent e = some p') :
    ∃ q pp, q.phaseProgress e.ID = some pp ∧ p' = captured q e pp ∧
      ((parsePhase e.Status = DownloadingPhase ∨ parsePhase e.Status ≥ DownloadCompletePhase) →
        (q.downloadProgress e.ID).isSome) ∧
      ((q = p ∧ p.phaseProgress e.ID = some pp) ∨
        ∃ ls, p.layers = some ls ∧ p.phaseProgress e.ID = none ∧ pp = {} ∧
          q = registered p e.ID ls) := by
  obtain ⟨hid, hnd⟩ := ht
  cases hpp : p.phaseProgress e.ID with
  | some pp =>
    rw [onEvent_known p e pp hid hpp, captureLatest_eq_some_iff] at h
    obtain ⟨pp', h1, h2, h3⟩ := h
    rw [hpp] at h1
    cases h1
    exact ⟨p, pp, hpp, h3, h2, Or.inl ⟨rfl, rfl⟩⟩
  | none =>
    cases hl : p.layers with
    | none => exact absurd ⟨hpp, hl⟩ hnd
    | some ls =>
      rw [onEvent_new p e ls hid hpp hl] at h
      cases h
      exact ⟨registered p e.ID ls, {}, registered_phaseProgress _ _ _, rfl,
        fun _ => by rw [registered_downloadProgress]; rfl, Or.inr ⟨ls, rfl, rfl, rfl, rfl⟩⟩

/-- A call of `onEvent` returns when the layer's counters are both present or both absent. -/
theorem onEvent_returns (p : PullStatus) (e : pullEvent)
    (h : (p.phaseProgress e.ID).isSome → (p.downloadProgress e.ID).isSome) :
    ∃ p', p.onEvent e = some p' := by
  by_cases hid : e.ID = ""
  · exact ⟨p, by simp [PullStatus.onEvent, hid]⟩
  · cases hpp : p.phaseProgress e.ID with
    | some pp =>
      refine ⟨captured p e pp, ?_⟩
      rw [onEvent_known p e pp hid hpp, captureLatest_eq_some_iff]
      exact ⟨pp, hpp, fun _ => h (by rw [hpp]; rfl), rfl⟩
    | none =>
      cases hl : p.layers with
      | none => exact ⟨_, onEvent_first p e hid hpp hl⟩
      | some ls => exact ⟨_, onEvent_new p e ls hid hpp hl⟩

theorem KeysAgree.paired {p : PullStatus} (h : KeysAgree p) (l : LayerID) :
    (p.phaseProgress l).isSome → (p.downloadProgress l).isSome := by
  intro hl
  exact (h.2.2.1 l).2 ((h.2.1 l).1 hl)

theorem captured_phase (q : PullStatus) (e : pullEvent) (pp : Manual) :
    (captured q e pp).phase e.ID = some (parsePhase e.Status) := by
  simp [captured]

theorem captured_phaseProgress (q : PullStatus) (e : pullEvent) (pp : Manual) :
    (captured q e pp).phaseProgress e.ID =
      some (phaseProgressAfter (parsePhase e.Status) e.ProgressDetail pp) := by
  simp [captured]

theorem captured_downloadProgress (q : PullStatus) (e : pullEvent) (pp : Manual) :
    (captured q e pp).downloadProgress e.ID =
      (q.downloadProgress e.ID).map
        (downloadProgressAfter (parsePhase e.Status) e.ProgressDetail) := by
  simp [captured]

/-! ## The key invariant along a session -/

theorem KeysAgree_new : KeysAgree newPullStatus := by
  simp [KeysAgree, newPullStatus, PullStatus.Layers]

theorem KeysAgree_captured_known (p : PullStatus) (e : pullEvent) (pp : Manual)
    (hk : KeysAgree p) (hpp : p.phaseProgress e.ID = some pp) :
    KeysAgree (captured p e pp) := by
  obtain ⟨h1, h2, h3, h4⟩ := hk
  have hmem : e.ID ∈ p.Layers := (h2 e.ID).1 (by rw [hpp]; rfl)
  have hL : (captured p e pp).Layers = p.Layers := by simp [PullStatus.Layers, captured]
  have hdl : (p.downloadProgress e.ID).isSome := (h3 e.ID).2 hmem
  refine ⟨fun l => ?_, fun l => ?_, fun l => ?_, by rw [hL]; exact h4⟩
  · rw [hL]
    by_cases hl : l = e.ID
    · subst hl; simp [captured, hmem]
    · simp [captured, Function.update_noteq hl, h1 l]
  · rw [hL]
    by_cases hl : l = e.ID
    · subst hl; simp [captured, hmem]
    · simp [captured, Function.update_noteq hl, h2 l]
  · rw [hL]
    by_cases hl : l = e.ID
    · subst hl
      obtain ⟨dl, hd⟩ := Option.isSome_iff_exists.1 hdl
      simp [captured, hmem, hd]
    · simp [captured, Function.update_noteq hl, h3 l]

theorem KeysAgree_captured_new (p : PullStatus) (e : pullEvent) (ls : List LayerID)
    (hk : KeysAgree p) (hl : p.layers = some ls) (hpp : p.phaseProgress e.ID = none) :
    KeysAgree (captured (registered p e.ID ls) e {}) := by
  obtain ⟨h1, h2, h3, h4⟩ := hk
  have hLp : p.Layers = ls := by simp [PullStatus.Layers, hl]
  rw [hLp] at h1 h2 h3 h4
  have hnot : e.ID ∉ ls := fun hm => by
    have := (h2 e.ID).2 hm
    rw [hpp] at this
    exact absurd this (by simp)
  have hL : (captured (registered p e.ID ls) e {}).Layers = ls ++ [e.ID] := by
    simp [PullStatus.Layers, captured, registered]
  refine ⟨fun l => ?_, fun l => ?_, fun l => ?_, ?_⟩
  · rw [hL]
    by_cases hle : l = e.ID
    · subst hle; simp [captured]
    · simp [captured, registered, Function.update_noteq hle, h1 l, hle]
  · rw [hL]
    by_cases hle : l = e.ID
    · subst hle; simp [captured]
    · simp [captured, registered, Function.update_noteq hle, h2 l, hle]
  · rw [hL]
    by_cases hle : l = e.ID
    · subst hle; simp [captured, registered]
    · simp [captured, registered, Function.update_noteq hle, h3 l, hle]
  · rw [hL]
    exact List.Nodup.append h4 (List.nodup_singleton _) (by simpa using hnot)

/-- One step from a tracker whose layer slice is allocated. -/
theorem onEvent_step_some (p : PullStatus) (e : pullEvent) (ls : List LayerID)
    (hk : KeysAgree p) (hl : p.layers = some ls) :
    ∃ p', p.onEvent e = some p' ∧ KeysAgree p' ∧ p'.layers = some (addLayer ls e.ID) := by
  have hLp : p.Layers = ls := by simp [PullStatus.Layers, hl]
  by_cases hid : e.ID = ""
  · exact ⟨p, by simp [PullStatus.onEvent, hid], hk, by simp [addLayer, hid, hl]⟩
  · cases hpp : p.phaseProgress e.ID with
    | some pp =>
      have hmem : e.ID ∈ ls := by
        rw [← hLp]; exact (hk.2.1 e.ID).1 (by rw [hpp]; rfl)
      refine ⟨captured p e pp, ?_, KeysAgree_captured_known p e pp hk hpp, ?_⟩
      · rw [onEvent_known p e pp hid hpp, captureLatest_eq_some_iff]
        exact ⟨pp, hpp, fun _ => hk.paired e.ID (by rw [hpp]; rfl), rfl⟩
      · simp [captured, addLayer, hmem, hl]
    | none =>
      have hnot : e.ID ∉ ls := fun hm => by
        have := (hk.2.1 e.ID).2 (by rw [hLp]; exact hm)
        rw [hpp] at this
        exact absurd this (by simp)
      exact ⟨_, onEvent_new p e ls hid hpp hl, KeysAgree_captured_new p e ls hk hl hpp,
        by simp [captured, registered, addLayer, hid, hnot]⟩

/-- One step from a tracker whose layer slice is still nil. -/
theorem onEvent_step_none (p : PullStatus) (e : pullEvent)
    (hk : KeysAgree p) (hl : p.layers = none) :
    ∃ p', p.onEvent e = some p' ∧ KeysAgree p' ∧
      p'.layers = if e.ID = "" then none else some [] := by
  have hLp : p.Layers = [] := by simp [PullStatus.Layers, hl]
  by_cases hid : e.ID = ""
  · exact ⟨p, by simp [PullStatus.onEvent, hid], hk, by simp [hid, hl]⟩
  · have hpp : p.phaseProgress e.ID = none := by
      cases h : p.phaseProgress e.ID with
      | none => rfl
      | some pp =>
        have := (hk.2.1 e.ID).1 (by rw [h]; rfl)
        rw [hLp] at this
        exact absurd this (by simp)
    refine ⟨_, onEvent_first p e hid hpp hl, ?_, by simp [hid]⟩
    obtain ⟨h1, h2, h3, h4⟩ := hk
    rw [hLp] at h1 h2 h3 h4
    exact ⟨by simpa [PullStatus.Layers] using h1, by simpa [PullStatus.Layers] using h2,
      by simpa [PullStatus.Layers] using h3, by simp [PullStatus.Layers]⟩

/-! ## First occurrences -/

theorem mem_keepFirst (x : LayerID) (l : List LayerID) : x ∈ keepFirst l ↔ x ∈ l := by
  induction l with
  | nil => simp [keepFirst]
  | cons a t ih =>
    by_cases h : x = a
    · simp [keepFirst, h]
    · simp [keepFirst, h, List.mem_filter, ih]

theorem keepFirst_nodup (l : List LayerID) : (keepFirst l).Nodup := by
  induction l with
  | nil => simp [keepFirst]
  | cons a t ih =>
    simp only [keepFirst, List.nodup_cons]
    exact ⟨by simp [List.mem_filter], ih.filter _⟩

theorem addLayer_empty (ls : List LayerID) : addLayer ls "" = ls := by
  simp [addLayer]

theorem foldl_addLayer_filter (ids : List LayerID) :
    ∀ ls, (ids.filter (fun i => i ≠ "")).foldl addLayer ls = ids.foldl addLayer ls := by
  induction ids with
  | nil => intro ls; rfl
  | cons a t ih =>
    intro ls
    by_cases h : a = ""
    · subst h
      rw [List.filter_cons_of_neg (by simp), List.foldl_cons, addLayer_empty]
      exact ih ls
    · rw [List.filter_cons_of_pos (by simpa using h), List.foldl_cons, List.foldl_cons]
      exact ih _

theorem foldl_addLayer_eq (ids : List LayerID) :
    ∀ ls, (∀ i ∈ ids, i ≠ "") →
      ids.foldl addLayer ls = ls ++ (keepFirst ids).filter (fun y => y ∉ ls) := by
  induction ids with
  | nil => intro ls _; simp [keepFirst]
  | cons a t ih =>
    intro ls hne
    have ha : a ≠ "" := hne a (List.mem_cons_self _ _)
    have ht : ∀ i ∈ t, i ≠ "" := fun i hi => hne i (List.mem_cons_of_mem _ hi)
    rw [List.foldl_cons, ih _ ht]
    by_cases hm : a ∈ ls
    · simp only [addLayer, ha, hm, false_or, if_true, keepFirst]
      congr 1
      rw [List.filter_cons_of_neg (by simpa using hm), List.filter_filter]
      apply List.filter_congr
      intro y _
      by_cases hy : y ∈ ls
      · simp [hy]
      · have : y ≠ a := fun h => hy (h ▸ hm)
        simp [hy, this]
    · simp only [addLayer, ha, hm, false_or, if_false, keepFirst]
      rw [List.filter_cons_of_pos (by simpa using hm), List.filter_filter, List.append_assoc]
      congr 1
      simp only [List.singleton_append]
      congr 1
      apply List.filter_congr
      intro y _
      by_cases hy : y = a
      · simp [hy]
      · simp [hy]

theorem foldl_addLayer_nil (ids : List LayerID) (hne : ∀ i ∈ ids, i ≠ "") :
    ids.foldl addLayer [] = keepFirst ids := by
  rw [foldl_addLayer_eq ids [] hne]
  simp

theorem nonEmptyIDs_ne (evs : List pullEvent) : ∀ i ∈ nonEmptyIDs evs, i ≠ "" := by
  intro i hi
  simpa using (List.mem_filter.1 hi).2

/-! ## Sessions -/

theorem onEvents_some (evs : List pullEvent) :
    ∀ (p : PullStatus) (ls : List LayerID), KeysAgree p → p.layers = some ls →
      ∃ p', p.onEvents evs = some p' ∧ KeysAgree p' ∧
        p'.layers = some ((evs.map (fun e => e.ID)).foldl addLayer ls) := by
  induction evs with
  | nil => intro p ls hk hl; exact ⟨p, rfl, hk, by simpa using hl⟩
  | cons e es ih =>
    intro p ls hk hl
    obtain ⟨p1, h1, hk1, hl1⟩ := onEvent_step_some p e ls hk hl
    obtain ⟨p2, h2, hk2, hl2⟩ := ih p1 _ hk1 hl1
    exact ⟨p2, by simp [PullStatus.onEvents, h1, h2], hk2, by simpa using hl2⟩

theorem onEvents_none (evs : List pullEvent) :
    ∀ (p : PullStatus), KeysAgree p → p.layers = none →
      ∃ p', p.onEvents evs = some p' ∧ KeysAgree p' ∧
        p'.Layers = keepFirst (nonEmptyIDs evs).tail := by
  induction evs with
  | nil => intro p hk hl; exact ⟨p, rfl, hk, by simp [PullStatus.Layers, hl, nonEmptyIDs, keepFirst]⟩
  | cons e es ih =>
    intro p hk hl
    obtain ⟨p1, h1, hk1, hl1⟩ := onEvent_step_none p e hk hl
    by_cases hid : e.ID = ""
    · rw [if_pos hid] at hl1
      obtain ⟨p2, h2, hk2, hl2⟩ := ih p1 hk1 hl1
      refine ⟨p2, by simp [PullStatus.onEvents, h1, h2], hk2, ?_⟩
      rw [hl2]
      simp [nonEmptyIDs, hid]
    · rw [if_neg hid] at hl1
      obtain ⟨p2, h2, hk2, hl2⟩ := onEvents_some es p1 [] hk1 hl1
      refine ⟨p2, by simp [PullStatus.onEvents, h1, h2], hk2, ?_⟩
      have hids : nonEmptyIDs (e :: es) = e.ID :: nonEmptyIDs es := by
        simp [nonEmptyIDs, hid]
      rw [hids, List.tail_cons, ← foldl_addLayer_nil _ (nonEmptyIDs_ne es)]
      unfold nonEmptyIDs
      rw [foldl_addLayer_filter]
      simp [PullStatus.Layers, hl2]

/-- A session on a new tracker never panics, keeps the key invariant and lists the first
occurrences of the non-empty ids that follow the first one. -/
theorem onEvents_new (evs : List pullEvent) :
    ∃ p, newPullStatus.onEvents evs = some p ∧ KeysAgree p ∧
      p.Layers = keepFirst (nonEmptyIDs evs).tail :=
  onEvents_none evs newPullStatus KeysAgree_new rfl

/-! ## Idempotence and the download counter -/

theorem captured_idem (q : PullStatus) (e : pullEvent) (pp : Manual) :
    captured (captured q e pp) e
      (phaseProgressAfter (parsePhase e.Status) e.ProgressDetail pp) = captured q e pp := by
  have hd : ((q.downloadProgress e.ID).map
      (downloadProgressAfter (parsePhase e.Status) e.ProgressDetail)).map
      (downloadProgressAfter (parsePhase e.Status) e.ProgressDetail) =
      (q.downloadProgress e.ID).map
        (downloadProgressAfter (parsePhase e.Status) e.ProgressDetail) := by
    cases q.downloadProgress e.ID with
    | none => rfl
    | some dl => simp [downloadProgressAfter_idem]
  simp only [captured, Function.update_same, Function.update_idem, phaseProgressAfter_idem, hd]

theorem downloadProgressAfter_complete (ph : PullPhase) (d : progressDetail) (m : Manual)
    (hph : ph ≥ DownloadCompletePhase) :
    downloadProgressAfter ph d m = { N := m.Total, Total := m.Total, Completed := true } := by
  have h3 : ph ≠ DownloadingPhase := by
    intro h
    rw [h] at hph
    exact absurd hph (by decide)
  unfold downloadProgressAfter
  rw [if_neg h3, if_pos hph, SetCompleted_of_eq _ rfl]

/-- Every way `onEvent` can return. -/
theorem onEvent_cases (p p' : PullStatus) (e : pullEvent) (h : p.onEvent e = some p') :
    p' = p ∨ p' = { p with layers := some [] } ∨
      ∃ q pp, p' = captured q e pp ∧ (q = p ∨ ∃ ls, q = registered p e.ID ls) := by
  by_cases hid : e.ID = ""
  · rw [onEvent_empty_id_aux p e hid] at h
    cases h
    exact Or.inl rfl
  · by_cases hd : discardedAsImageID p e
    · rw [onEvent_first p e hid hd.1 hd.2] at h
      cases h
      exact Or.inr (Or.inl rfl)
    · obtain ⟨q, pp, _, hp', _, hq⟩ := onEvent_tracked p p' e ⟨hid, hd⟩ h
      refine Or.inr (Or.inr ⟨q, pp, hp', ?_⟩)
      rcases hq with ⟨hq, _⟩ | ⟨ls, _, _, _, hq⟩
      · exact Or.inl hq
      · exact Or.inr ⟨ls, hq⟩

/-- The download counter of a layer stays at `0/0` while no event moves it to
`DownloadingPhase`. -/
theorem downloadProgress_zero_step (L : LayerID) (p p' : PullStatus) (e : pullEvent)
    (hz : ∀ m, p.downloadProgress L = some m → m.N = 0 ∧ m.Total = 0)
    (h : p.onEvent e = some p')
    (hno : e.ID = L → parsePhase e.Status ≠ DownloadingPhase) :
    ∀ m, p'.downloadProgress L = some m → m.N = 0 ∧ m.Total = 0 := by
  have key : ∀ q : PullStatus, (∀ m, q.downloadProgress L = some m → m.N = 0 ∧ m.Total = 0) →
      ∀ pp m, (captured q e pp).downloadProgress L = some m → m.N = 0 ∧ m.Total = 0 := by
    intro q hq pp m hm
    by_cases hL : L = e.ID
    · subst hL
      rw [captured_downloadProgress] at hm
      cases hdl : q.downloadProgress e.ID with
      | none => rw [hdl] at hm; cases hm
      | some dl =>
        rw [hdl] at hm
        simp only [Option.map_some', Option.some.injEq] at hm
        obtain ⟨h0, ht⟩ := hq dl hdl
        have h3 := hno rfl
        subst hm
        unfold downloadProgressAfter
        rw [if_neg h3]
        split
        · rw [SetCompleted_of_eq _ rfl]
          exact ⟨ht, ht⟩
        · exact ⟨h0, ht⟩
    · have : (captured q e pp).downloadProgress L = q.downloadProgress L := by
        simp [captured, Function.update_noteq hL]
      rw [this] at hm
      exact hq m hm
  rcases onEvent_cases p p' e h with rfl | rfl | ⟨q, pp, rfl, hq⟩
  · exact hz
  · exact hz
  · rcases hq with rfl | ⟨ls, rfl⟩
    · exact key _ hz pp
    · refine key _ ?_ pp
      intro m hm
      by_cases hL : L = e.ID
      · subst hL
        rw [registered_downloadProgress] at hm
        cases hm
        exact ⟨rfl, rfl⟩
      · have : (registered p e.ID ls).downloadProgress L = p.downloadProgress L := by
          simp [registered, Function.update_noteq hL]
        rw [this] at hm
        exact hz m hm

theorem downloadProgress_zero_session (L : LayerID) (evs : List pullEvent) :
    ∀ p p' : PullStatus, (∀ m, p.downloadProgress L = some m → m.N = 0 ∧ m.Total = 0) →
      p.onEvents evs = some p' →
      (∀ e ∈ evs, e.ID = L → parsePhase e.Status ≠ DownloadingPhase) →
      ∀ m, p'.downloadProgress L = some m → m.N = 0 ∧ m.Total = 0 := by
  induction evs with
  | nil =>
    intro p p' hz h _
    simp only [PullStatus.onEvents, Option.some.injEq] at h
    subst h
    exact hz
  | cons e es ih =>
    intro p p' hz h hno
    simp only [PullStatus.onEvents] at h
    cases h1 : p.onEvent e with
    | none => rw [h1] at h; cases h
    | some p1 =>
      rw [h1] at h
      exact ih p1 p' (downloadProgress_zero_step L p p1 e hz h1
        (hno e (List.mem_cons_self _ _))) h
        (fun e' he' => hno e' (List.mem_cons_of_mem _ he'))

/-! ## The claims -/

/-- C1: `parsePhase` maps each of the eight status labels to its phase, returns `UnknownPhase`
exactly on the strings that are none of the eight labels (so on the case variant "waiting"),
and the phase constants are strictly increasing in the order of their declaration. -/
theorem parsePhase_table :
    parsePhase "Waiting" = WaitingPhase ∧
    parsePhase "Pulling fs layer" = PullingFsPhase ∧
    parsePhase "Downloading" = DownloadingPhase ∧
    parsePhase "Download complete" = DownloadCompletePhase ∧
    parsePhase "Extracting" = ExtractingPhase ∧
    parsePhase "Verifying Checksum" = VerifyingChecksumPhase ∧
    parsePhase "Already exists" = AlreadyExistsPhase ∧
    parsePhase "Pull complete" = PullCompletePhase ∧
    (∀ s : String, parsePhase s = UnknownPhase ↔
      (s ≠ "Waiting" ∧ s ≠ "Pulling fs layer" ∧ s ≠ "Downloading" ∧ s ≠ "Download complete" ∧
        s ≠ "Extracting" ∧ s ≠ "Verifying Checksum" ∧ s ≠ "Already exists" ∧
        s ≠ "Pull complete")) ∧
    parsePhase "waiting" = UnknownPhase ∧
    UnknownPhase < WaitingPhase ∧ WaitingPhase < PullingFsPhase ∧
    PullingFsPhase < DownloadingPhase ∧ DownloadingPhase < DownloadCompletePhase ∧
    DownloadCompletePhase < ExtractingPhase ∧ ExtractingPhase < VerifyingChecksumPhase ∧
    VerifyingChecksumPhase < AlreadyExistsPhase ∧ AlreadyExistsPhase < PullCompletePhase := by
  refine ⟨by decide, by decide, by decide, by decide, by decide, by decide, by decide,
    by decide, ?_, by decide, by decide, by decide, by decide, by decide, by decide, by decide,
    by decide, by decide⟩
  intro s
  unfold parsePhase
  split <;> simp_all

/-- C3: when a tracked event classifies to a phase at or above `AlreadyExistsPhase`, every
tracker returned by `onEvent` has a phase-progress counter for the event's layer and that
counter reports completed, whatever the event's progress detail is. The call does return
when the tracker's maps agree on their keys. -/
theorem onEvent_phaseProgress_completed (p : PullStatus) (e : pullEvent) (ht : tracked p e)
    (hph : parsePhase e.Status ≥ AlreadyExistsPhase) :
    (∀ p', p.onEvent e = some p' →
      ∃ m, (p'.Current e.ID).PhaseProgress = some m ∧ m.Completed = true ∧
        Progressable.Completed (p'.Current e.ID).PhaseProgress = some true) ∧
    (KeysAgree p → ∃ p', p.onEvent e = some p') := by
  refine ⟨?_, fun hk => onEvent_returns p e (hk.paired e.ID)⟩
  intro p' h
  obtain ⟨q, pp, _, rfl, _, _⟩ := onEvent_tracked p p' e ht h
  have hc : (phaseProgressAfter (parsePhase e.Status) e.ProgressDetail pp).Completed = true := by
    unfold phaseProgressAfter
    rw [if_pos hph]
    exact SetCompleted_completed pp
  refine ⟨_, captured_phaseProgress q e pp, hc, ?_⟩
  simp [PullStatus.Current, captured_phaseProgress, Progressable.Completed, hc]

/-- C8: an event whose id is the empty string changes nothing: `onEvent` returns the very
tracker it was given (layer slice, nil or not, the three maps and the complete flag). -/
theorem onEvent_empty_id (p : PullStatus) (e : pullEvent) (h : e.ID = "") :
    p.onEvent e = some p := by
  simp [PullStatus.onEvent, h]

/-- C10: after a tracked event for layer `L`, `Current(L).Phase` is `parsePhase` of the
event's status, whatever phase was stored before. The call does return when the tracker's
maps agree on their keys. -/
theorem onEvent_phase_overwrite (p : PullStatus) (e : pullEvent) (ht : tracked p e) :
    (∀ p', p.onEvent e = some p' → (p'.Current e.ID).Phase = parsePhase e.Status) ∧
    (KeysAgree p → ∃ p', p.onEvent e = some p') := by
  refine ⟨?_, fun hk => onEvent_returns p e (hk.paired e.ID)⟩
  intro p' h
  obtain ⟨q, pp, _, rfl, _, _⟩ := onEvent_tracked p p' e ht h
  simp [PullStatus.Current, captured_phase]

/-- Witness of C3: the layer "L2" is registered by an "Already exists" event that carries
a progress detail. -/
theorem onEvent_phaseProgress_completed_witness :
    tracked pulledL1 (ev "L2" "Already exists" 3 9) ∧
    parsePhase (ev "L2" "Already exists" 3 9).Status ≥ AlreadyExistsPhase ∧
    ((∀ p', pulledL1.onEvent (ev "L2" "Already exists" 3 9) = some p' →
      ∃ m, (p'.Current (ev "L2" "Already exists" 3 9).ID).PhaseProgress = some m ∧
        m.Completed = true ∧
        Progressable.Completed
          (p'.Current (ev "L2" "Already exists" 3 9).ID).PhaseProgress = some true) ∧
    (KeysAgree pulledL1 → ∃ p', pulledL1.onEvent (ev "L2" "Already exists" 3 9) = some p')) :=
  ⟨by decide, by decide,
    onEvent_phaseProgress_completed pulledL1 (ev "L2" "Already exists" 3 9)
      (by decide) (by decide)⟩

/-- Witness of C8: an event without id on a new tracker. -/
theorem onEvent_empty_id_witness :
    (ev "" "Waiting" 7 9).ID = "" ∧
    newPullStatus.onEvent (ev "" "Waiting" 7 9) = some newPullStatus :=
  ⟨rfl, onEvent_empty_id newPullStatus (ev "" "Waiting" 7 9) rfl⟩

/-- Witness of C10: the layer "L1" is at `PullCompletePhase` and a "Waiting" event moves it
back to `WaitingPhase`. -/
theorem onEvent_phase_overwrite_witness :
    tracked pulledL1 (ev "L1" "Waiting" 0 0) ∧
    (pulledL1.Current "L1").Phase = PullCompletePhase ∧
    ((∀ p', pulledL1.onEvent (ev "L1" "Waiting" 0 0) = some p' →
      (p'.Current (ev "L1" "Waiting" 0 0).ID).Phase = parsePhase (ev "L1" "Waiting" 0 0).Status) ∧
    (KeysAgree pulledL1 → ∃ p', pulledL1.onEvent (ev "L1" "Waiting" 0 0) = some p')) :=
  ⟨by decide, by decide, onEvent_phase_overwrite pulledL1 (ev "L1" "Waiting" 0 0) (by decide)⟩

/-- C2: for every sequence of events ingested into a new tracker the session returns, and
`Layers()` is the list of the events' non-empty ids in delivery order, without the first
one, with only the first occurrence of each id kept; it has no duplicates. -/
theorem Layers_first_seen (evs : List pullEvent) :
    ∃ p, newPullStatus.onEvents evs = some p ∧
      p.Layers = keepFirst (nonEmptyIDs evs).tail ∧ p.Layers.Nodup := by
  obtain ⟨p, h, hk, hl⟩ := onEvents_new evs
  exact ⟨p, h, hl, hk.2.2.2⟩

/-- C4: when a tracked event classifies to a phase at or above `DownloadCompletePhase`, every
tracker returned by `onEvent` has a download-progress counter for the event's layer with
`N = Total` that reports completed (`SetCompleted` with its adjustment of the total
included). The call returns when the tracker's maps agree on their keys. When the tracker
comes from a session in which no event moved that layer to `DownloadingPhase`, the counter
reads `0`, `0`, completed. -/
theorem onEvent_downloadProgress_completed (p : PullStatus) (e : pullEvent) (ht : tracked p e)
    (hph : parsePhase e.Status ≥ DownloadCompletePhase) :
    (∀ p', p.onEvent e = some p' →
      ∃ m, (p'.Current e.ID).DownloadProgress = some m ∧ m.N = m.Total ∧
        m.Completed = true) ∧
    (KeysAgree p → ∃ p', p.onEvent e = some p') ∧
    (∀ evs, newPullStatus.onEvents evs = some p →
      (∀ e' ∈ evs, e'.ID = e.ID → parsePhase e'.Status ≠ DownloadingPhase) →
      ∀ p', p.onEvent e = some p' →
        (p'.Current e.ID).DownloadProgress = some { N := 0, Total := 0, Completed := true }) := by
  have main : ∀ p', p.onEvent e = some p' →
      ∃ dl q, q.downloadProgress e.ID = some dl ∧
        (q = p ∨ ∃ ls, q = registered p e.ID ls) ∧
        (p'.Current e.ID).DownloadProgress =
          some { N := dl.Total, Total := dl.Total, Completed := true } := by
    intro p' h
    obtain ⟨q, pp, _, rfl, hdl, hq⟩ := onEvent_tracked p p' e ht h
    obtain ⟨dl, hd⟩ := Option.isSome_iff_exists.1 (hdl (Or.inr hph))
    refine ⟨dl, q, hd, ?_, ?_⟩
    · rcases hq with ⟨hq, _⟩ | ⟨ls, _, _, _, hq⟩
      · exact Or.inl hq
      · exact Or.inr ⟨ls, hq⟩
    · simp only [PullStatus.Current, captured_downloadProgress, hd, Option.map_some',
        downloadProgressAfter_complete _ _ _ hph]
  refine ⟨?_, fun hk => onEvent_returns p e (hk.paired e.ID), ?_⟩
  · intro p' h
    obtain ⟨dl, q, _, _, hc⟩ := main p' h
    exact ⟨_, hc, rfl, rfl⟩
  · intro evs hevs hno p' h
    obtain ⟨dl, q, hd, hq, hc⟩ := main p' h
    have hz : ∀ m, p.downloadProgress e.ID = some m → m.N = 0 ∧ m.Total = 0 :=
      downloadProgress_zero_session e.ID evs newPullStatus p
        (fun m hm => by simp [newPullStatus] at hm) hevs hno
    have ht0 : dl.Total = 0 := by
      rcases hq with rfl | ⟨ls, rfl⟩
      · exact (hz dl hd).2
      · rw [registered_downloadProgress] at hd
        cases hd
        rfl
    rw [hc, ht0]

/-- Witness of C4: the layer "L3" is registered by an "Extracting" event and never saw a
"Downloading" one. -/
theorem onEvent_downloadProgress_completed_witness :
    tracked pulledL1 (ev "L3" "Extracting" 5 0) ∧
    parsePhase (ev "L3" "Extracting" 5 0).Status ≥ DownloadCompletePhase ∧
    ((∀ p', pulledL1.onEvent (ev "L3" "Extracting" 5 0) = some p' →
      ∃ m, (p'.Current (ev "L3" "Extracting" 5 0).ID).DownloadProgress = some m ∧
        m.N = m.Total ∧ m.Completed = true) ∧
    (KeysAgree pulledL1 → ∃ p', pulledL1.onEvent (ev "L3" "Extracting" 5 0) = some p') ∧
    (∀ evs, newPullStatus.onEvents evs = some pulledL1 →
      (∀ e' ∈ evs, e'.ID = (ev "L3" "Extracting" 5 0).ID →
        parsePhase e'.Status ≠ DownloadingPhase) →
      ∀ p', pulledL1.onEvent (ev "L3" "Extracting" 5 0) = some p' →
        (p'.Current (ev "L3" "Extracting" 5 0).ID).DownloadProgress =
          some { N := 0, Total := 0, Completed := true })) :=
  ⟨by decide, by decide,
    onEvent_downloadProgress_completed pulledL1 (ev "L3" "Extracting" 5 0)
      (by decide) (by decide)⟩

/-- Counterexample to C5 as stated: on a new tracker one event with id "img1" leaves
`Layers()` empty, the same event ingested twice leaves `Layers() = ["img1"]` and gives
"img1" a phase-progress counter it does not have after one ingestion. -/
theorem onEvent_not_idempotent_on_new :
    (newPullStatus.onEvents [ev "img1" "Waiting" 0 0]).map PullStatus.Layers = some [] ∧
    (newPullStatus.onEvents [ev "img1" "Waiting" 0 0, ev "img1" "Waiting" 0 0]).map
      PullStatus.Layers = some ["img1"] ∧
    (newPullStatus.onEvents [ev "img1" "Waiting" 0 0]).map
      (fun p => (p.Current "img1").PhaseProgress) = some none ∧
    (newPullStatus.onEvents [ev "img1" "Waiting" 0 0, ev "img1" "Waiting" 0 0]).map
      (fun p => (p.Current "img1").PhaseProgress) = some (some {}) := by
  decide

/-- C5, amended: for an event that has an empty id or is tracked (not dropped as the image
id), ingesting it a second time right after the first leaves the tracker as it is: the
second call returns a tracker with the same `Layers()`, the same `Current(id)` for every id
and the same `Complete()`. The first call returns when the tracker's maps agree on their
keys. -/
theorem onEvent_idempotent (p : PullStatus) (e : pullEvent) (hnd : e.ID = "" ∨ tracked p e) :
    (∀ p1, p.onEvent e = some p1 →
      ∃ p2, p1.onEvent e = some p2 ∧ p2.Layers = p1.Layers ∧
        (∀ id, p2.Current id = p1.Current id) ∧ p2.Complete = p1.Complete) ∧
    (KeysAgree p → ∃ p1, p.onEvent e = some p1) := by
  refine ⟨?_, fun hk => onEvent_returns p e (hk.paired e.ID)⟩
  intro p1 h1
  suffices hfix : p1.onEvent e = some p1 from ⟨p1, hfix, rfl, fun _ => rfl, rfl⟩
  rcases hnd with hid | ht
  · exact onEvent_empty_id_aux p1 e hid
  · obtain ⟨q, pp, hq, rfl, hdl, _⟩ := onEvent_tracked p p1 e ht h1
    rw [onEvent_known _ e _ ht.1 (captured_phaseProgress q e pp), captureLatest_eq_some_iff]
    refine ⟨_, captured_phaseProgress q e pp, ?_, (captured_idem q e pp).symm⟩
    intro hneed
    rw [captured_downloadProgress]
    obtain ⟨dl, hd⟩ := Option.isSome_iff_exists.1 (hdl hneed)
    simp [hd]

/-- Witness of C5, amended: a "Downloading" event for the registered layer "L1". -/
theorem onEvent_idempotent_witness :
    ((ev "L1" "Downloading" 10 100).ID = "" ∨ tracked pulledL1 (ev "L1" "Downloading" 10 100)) ∧
    ((∀ p1, pulledL1.onEvent (ev "L1" "Downloading" 10 100) = some p1 →
      ∃ p2, p1.onEvent (ev "L1" "Downloading" 10 100) = some p2 ∧ p2.Layers = p1.Layers ∧
        (∀ id, p2.Current id = p1.Current id) ∧ p2.Complete = p1.Complete) ∧
    (KeysAgree pulledL1 → ∃ p1, pulledL1.onEvent (ev "L1" "Downloading" 10 100) = some p1)) :=
  ⟨by decide, onEvent_idempotent pulledL1 (ev "L1" "Downloading" 10 100) (by decide)⟩

/-- Counterexample to C6 as stated: "sha1" is the first non-empty id of the session, and
after a later event carries "sha1" again it is an element of `Layers()`. -/
theorem first_id_listed_when_repeated :
    nonEmptyIDs [ev "" "Waiting" 0 0, ev "sha1" "Waiting" 0 0, ev "L1" "Waiting" 0 0,
      ev "sha1" "Waiting" 0 0] = ["sha1", "L1", "sha1"] ∧
    (newPullStatus.onEvents [ev "" "Waiting" 0 0, ev "sha1" "Waiting" 0 0,
      ev "L1" "Waiting" 0 0, ev "sha1" "Waiting" 0 0]).map PullStatus.Layers =
      some ["L1", "sha1"] := by
  decide

/-- C6, amended: for every sequence of events ingested into a new tracker, with `x` the first
non-empty id and `rest` the non-empty ids after it, the session returns and `x` is an element
of `Layers()` exactly when `x` occurs again in `rest`; so `x` stays out of `Layers()` as long
as no later event carries it. -/
theorem first_id_listed_iff (evs : List pullEvent) (x : LayerID) (rest : List LayerID)
    (h : nonEmptyIDs evs = x :: rest) :
    ∃ p, newPullStatus.onEvents evs = some p ∧ (x ∈ p.Layers ↔ x ∈ rest) := by
  obtain ⟨p, hp, _, hl⟩ := onEvents_new evs
  refine ⟨p, hp, ?_⟩
  rw [hl, h, List.tail_cons, mem_keepFirst]

/-- Witness of C6, amended: the image id "img1" followed by two events of the layer "L1". -/
theorem first_id_listed_iff_witness :
    nonEmptyIDs [ev "img1" "Waiting" 0 0, ev "L1" "Waiting" 0 0, ev "L1" "Downloading" 1 2] =
      "img1" :: ["L1", "L1"] ∧
    ∃ p, newPullStatus.onEvents
        [ev "img1" "Waiting" 0 0, ev "L1" "Waiting" 0 0, ev "L1" "Downloading" 1 2] = some p ∧
      ("img1" ∈ p.Layers ↔ "img1" ∈ ["L1", "L1"]) :=
  ⟨by decide, first_id_listed_iff _ "img1" ["L1", "L1"] (by decide)⟩

/-- Counterexample to C7 as stated: on a new tracker `Current("L1")` holds no counters, both
fields are nil pointers, so reading current, total or completion from them does not give
`0`, `0`, not completed. -/
theorem Current_unknown_id_nil :
    (newPullStatus.Current "L1").PhaseProgress = none ∧
    (newPullStatus.Current "L1").DownloadProgress = none ∧
    Progressable.Current (newPullStatus.Current "L1").PhaseProgress ≠ some 0 ∧
    Progressable.Size (newPullStatus.Current "L1").PhaseProgress ≠ some 0 ∧
    Progressable.Completed (newPullStatus.Current "L1").PhaseProgress ≠ some false ∧
    Progressable.Current (newPullStatus.Current "L1").DownloadProgress ≠ some 0 ∧
    Progressable.Size (newPullStatus.Current "L1").DownloadProgress ≠ some 0 ∧
    Progressable.Completed (newPullStatus.Current "L1").DownloadProgress ≠ some false := by
  decide

/-- C7, amended: for every session on a new tracker and every id carried by none of its
events, the session returns and `Current(id)` is the zero `LayerState`: phase
`UnknownPhase` and nil phase-progress and download-progress counters. -/
theorem Current_never_passed (evs : List pullEvent) (id : LayerID)
    (h : ∀ e ∈ evs, e.ID ≠ id) :
    ∃ p, newPullStatus.onEvents evs = some p ∧
      p.Current id = { Phase := UnknownPhase, PhaseProgress := none, DownloadProgress := none } := by
  obtain ⟨p, hp, hk, hl⟩ := onEvents_new evs
  refine ⟨p, hp, ?_⟩
  have hnot : id ∉ p.Layers := by
    intro hm
    rw [hl] at hm
    have h1 : id ∈ nonEmptyIDs evs := List.mem_of_mem_tail ((mem_keepFirst _ _).1 hm)
    obtain ⟨e, he, hid⟩ := List.mem_map.1 (List.mem_of_mem_filter h1)
    exact h e he hid
  have none_of : ∀ {α : Type} (o : Option α), ¬ o.isSome = true → o = none := by
    intro α o ho
    cases o with
    | none => rfl
    | some a => exact absurd rfl ho
  have h1 := none_of _ (fun hs => hnot ((hk.1 id).1 hs))
  have h2 := none_of _ (fun hs => hnot ((hk.2.1 id).1 hs))
  have h3 := none_of _ (fun hs => hnot ((hk.2.2.1 id).1 hs))
  simp [PullStatus.Current, h1, h2, h3]

/-- Witness of C7, amended: the id "L9" after a session that only names "img1" and "L1". -/
theorem Current_never_passed_witness :
    (∀ e ∈ [ev "img1" "Waiting" 0 0, ev "L1" "Downloading" 1 2], e.ID ≠ "L9") ∧
    ∃ p, newPullStatus.onEvents [ev "img1" "Waiting" 0 0, ev "L1" "Downloading" 1 2] = some p ∧
      p.Current "L9" =
        { Phase := UnknownPhase, PhaseProgress := none, DownloadProgress := none } :=
  ⟨by decide, Current_never_passed _ "L9" (by decide)⟩

/-- C9: every session on a new tracker returns, and in the tracker it reaches the phase map,
the phase-progress map and the download-progress map each have exactly the elements of the
layer list as keys, and every element of the layer list occurs in it exactly once. -/
theorem reachable_keys_agree (evs : List pullEvent) :
    ∃ p, newPullStatus.onEvents evs = some p ∧
      (∀ l, (p.phase l).isSome ↔ l ∈ p.Layers) ∧
      (∀ l, (p.phaseProgress l).isSome ↔ l ∈ p.Layers) ∧
      (∀ l, (p.downloadProgress l).isSome ↔ l ∈ p.Layers) ∧
      p.Layers.Nodup ∧ (∀ l ∈ p.Layers, p.Layers.count l = 1) := by
  obtain ⟨p, hp, hk, _⟩ := onEvents_new evs
  exact ⟨p, hp, hk.1, hk.2.1, hk.2.2.1, hk.2.2.2,
    fun l hl => List.count_eq_one_of_mem hk.2.2.2 hl⟩

/-! ## Frame lemmas -/

/-- The four ways `onEvent` can return, with the branch conditions. -/
theorem onEvent_shape (p p' : PullStatus) (e : pullEvent) (h : p.onEvent e = some p') :
    (e.ID = "" ∧ p' = p) ∨
    (e.ID ≠ "" ∧ p.phaseProgress e.ID = none ∧ p.layers = none ∧
      p' = { p with layers := some [] }) ∨
    (∃ pp, e.ID ≠ "" ∧ p.phaseProgress e.ID = some pp ∧ p' = captured p e pp ∧
      ((parsePhase e.Status = DownloadingPhase ∨ parsePhase e.Status ≥ DownloadCompletePhase) →
        (p.downloadProgress e.ID).isSome)) ∨
    (∃ ls, e.ID ≠ "" ∧ p.phaseProgress e.ID = none ∧ p.layers = some ls ∧
      p' = captured (registered p e.ID ls) e {}) := by
  by_cases hid : e.ID = ""
  · rw [onEvent_empty_id_aux p e hid] at h
    cases h
    exact Or.inl ⟨hid, rfl⟩
  · cases hpp : p.phaseProgress e.ID with
    | some pp =>
      rw [onEvent_known p e pp hid hpp, captureLatest_eq_some_iff] at h
      obtain ⟨pp', h1, h2, h3⟩ := h
      rw [hpp] at h1
      cases h1
      exact Or.inr (Or.inr (Or.inl ⟨pp, hid, rfl, h3, h2⟩))
    | none =>
      cases hl : p.layers with
      | none =>
        rw [onEvent_first p e hid hpp hl] at h
        cases h
        exact Or.inr (Or.inl ⟨hid, rfl, rfl, rfl⟩)
      | some ls =>
        rw [onEvent_new p e ls hid hpp hl] at h
        cases h
        exact Or.inr (Or.inr (Or.inr ⟨ls, hid, rfl, rfl, rfl⟩))

theorem captured_complete (q : PullStatus) (e : pullEvent) (pp : Manual) :
    (captured q e pp).complete = q.complete := rfl

theorem captured_layers (q : PullStatus) (e : pullEvent) (pp : Manual) :
    (captured q e pp).layers = q.layers := rfl

theorem captured_other (q : PullStatus) (e : pullEvent) (pp : Manual) (B : LayerID)
    (hB : B ≠ e.ID) :
    (captured q e pp).phase B = q.phase B ∧
    (captured q e pp).phaseProgress B = q.phaseProgress B ∧
    (captured q e pp).downloadProgress B = q.downloadProgress B := by
  simp [captured, Function.update_noteq hB]

theorem registered_other (p : PullStatus) (l : LayerID) (ls : List LayerID) (B : LayerID)
    (hB : B ≠ l) :
    (registered p l ls).phase B = p.phase B ∧
    (registered p l ls).phaseProgress B = p.phaseProgress B ∧
    (registered p l ls).downloadProgress B = p.downloadProgress B := by
  simp [registered, Function.update_noteq hB]

/-- An event touches the map entries of its own id only. -/
theorem onEvent_other (p p' : PullStatus) (e : pullEvent) (h : p.onEvent e = some p')
    (B : LayerID) (hB : B ≠ e.ID) :
    p'.phase B = p.phase B ∧ p'.phaseProgress B = p.phaseProgress B ∧
      p'.downloadProgress B = p.downloadProgress B := by
  rcases onEvent_shape p p' e h with ⟨_, rfl⟩ | ⟨_, _, _, rfl⟩ | ⟨pp, _, _, rfl, _⟩ |
    ⟨ls, _, _, _, rfl⟩
  · exact ⟨rfl, rfl, rfl⟩
  · exact ⟨rfl, rfl, rfl⟩
  · exact captured_other p e pp B hB
  · obtain ⟨h1, h2, h3⟩ := captured_other (registered p e.ID ls) e {} B hB
    obtain ⟨g1, g2, g3⟩ := registered_other p e.ID ls B hB
    exact ⟨h1.trans g1, h2.trans g2, h3.trans g3⟩

/-- An event leaves the layer list as it is or appends its id to it. -/
theorem onEvent_Layers (p p' : PullStatus) (e : pullEvent) (h : p.onEvent e = some p') :
    p'.Layers = p.Layers ∨
      (p.phaseProgress e.ID = none ∧ p'.Layers = p.Layers ++ [e.ID]) := by
  rcases onEvent_shape p p' e h with ⟨_, rfl⟩ | ⟨_, _, hl, rfl⟩ | ⟨pp, _, _, rfl, _⟩ |
    ⟨ls, _, hpp, hl, rfl⟩
  · exact Or.inl rfl
  · exact Or.inl (by simp [PullStatus.Layers, hl])
  · exact Or.inl rfl
  · exact Or.inr ⟨hpp, by simp [PullStatus.Layers, captured, registered, hl]⟩

theorem onEvent_complete (p p' : PullStatus) (e : pullEvent) (h : p.onEvent e = some p') :
    p'.complete = p.complete := by
  rcases onEvent_shape p p' e h with ⟨_, rfl⟩ | ⟨_, _, _, rfl⟩ | ⟨pp, _, _, rfl, _⟩ |
    ⟨ls, _, _, _, rfl⟩ <;> rfl

/-! ## Completion flags -/

theorem phaseProgressAfter_completed (ph : PullPhase) (d : progressDetail) (m : Manual)
    (h : m.Completed = true) : (phaseProgressAfter ph d m).Completed = true := by
  unfold phaseProgressAfter
  split
  · exact SetCompleted_completed m
  · exact h

theorem downloadProgressAfter_completed (ph : PullPhase) (d : progressDetail) (m : Manual)
    (h : m.Completed = true) : (downloadProgressAfter ph d m).Completed = true := by
  unfold downloadProgressAfter
  split
  · exact h
  · split
    · exact SetCompleted_completed _
    · exact h

/-- One call of `onEvent` keeps a registered layer registered and keeps the completion flags
of its two counters. -/
theorem completed_sticky_step (L : LayerID) (p p' : PullStatus) (e : pullEvent)
    (h : p.onEvent e = some p') (hreg : (p.phaseProgress L).isSome) :
    (p'.phaseProgress L).isSome ∧
    ((∃ m, p.phaseProgress L = some m ∧ m.Completed = true) →
      ∃ m, p'.phaseProgress L = some m ∧ m.Completed = true) ∧
    ((∃ m, p.downloadProgress L = some m ∧ m.Completed = true) →
      ∃ m, p'.downloadProgress L = some m ∧ m.Completed = true) := by
  by_cases hL : L = e.ID
  · subst hL
    rcases onEvent_shape p p' e h with ⟨_, rfl⟩ | ⟨_, hn, _, rfl⟩ | ⟨pp, _, hpp, rfl, _⟩ |
      ⟨ls, _, hn, _, rfl⟩
    · exact ⟨hreg, id, id⟩
    · rw [hn] at hreg; cases hreg
    · refine ⟨by rw [captured_phaseProgress]; rfl, ?_, ?_⟩
      · rintro ⟨m, hm, hc⟩
        rw [hpp] at hm
        cases hm
        exact ⟨_, captured_phaseProgress p e pp, phaseProgressAfter_completed _ _ _ hc⟩
      · rintro ⟨m, hm, hc⟩
        refine ⟨_, by rw [captured_downloadProgress, hm]; rfl, ?_⟩
        exact downloadProgressAfter_completed _ _ _ hc
    · rw [hn] at hreg; cases hreg
  · obtain ⟨_, h2, h3⟩ := onEvent_other p p' e h L hL
    rw [h2, h3]
    exact ⟨hreg, id, id⟩

theorem completed_sticky_session (L : LayerID) (evs : List pullEvent) :
    ∀ p p' : PullStatus, p.onEvents evs = some p' → (p.phaseProgress L).isSome →
      (p'.phaseProgress L).isSome ∧
      ((∃ m, p.phaseProgress L = some m ∧ m.Completed = true) →
        ∃ m, p'.phaseProgress L = some m ∧ m.Completed = true) ∧
      ((∃ m, p.downloadProgress L = some m ∧ m.Completed = true) →
        ∃ m, p'.downloadProgress L = some m ∧ m.Completed = true) := by
  induction evs with
  | nil =>
    intro p p' h hreg
    simp only [PullStatus.onEvents, Option.some.injEq] at h
    subst h
    exact ⟨hreg, id, id⟩
  | cons e es ih =>
    intro p p' h hreg
    simp only [PullStatus.onEvents] at h
    cases h1 : p.onEvent e with
    | none => rw [h1] at h; cases h
    | some p1 =>
      rw [h1] at h
      obtain ⟨r1, a1, b1⟩ := completed_sticky_step L p p1 e h1 hreg
      obtain ⟨r2, a2, b2⟩ := ih p1 p' h r1
      exact ⟨r2, fun x => a2 (a1 x), fun x => b2 (b1 x)⟩

/-- A session returns from every tracker whose maps agree on their keys. -/
theorem onEvents_returns (evs : List pullEvent) :
    ∀ p : PullStatus, KeysAgree p → ∃ p', p.onEvents evs = some p' := by
  intro p hk
  cases hl : p.layers with
  | none =>
    obtain ⟨p', h, _⟩ := onEvents_none evs p hk hl
    exact ⟨p', h⟩
  | some ls =>
    obtain ⟨p', h, _⟩ := onEvents_some evs p ls hk hl
    exact ⟨p', h⟩

/-! ## The claims, continued -/

/-- C11: when a tracked event classifies to a phase below `AlreadyExistsPhase`, every tracker
returned by `onEvent` has a phase-progress counter for the event's layer whose `N` and
`Total` are the event's progress detail, whatever they were before; its completion flag is
the one it had, and it is not completed when the layer is registered by this very event. The
call returns when the tracker's maps agree on their keys. -/
theorem onEvent_phaseProgress_overwrite (p : PullStatus) (e : pullEvent) (ht : tracked p e)
    (hph : parsePhase e.Status < AlreadyExistsPhase) :
    (∀ p', p.onEvent e = some p' →
      ∃ m, (p'.Current e.ID).PhaseProgress = some m ∧
        m.N = e.ProgressDetail.Current ∧ m.Total = e.ProgressDetail.Total ∧
        (p.phaseProgress e.ID = none → m.Completed = false) ∧
        (∀ pp, p.phaseProgress e.ID = some pp → m.Completed = pp.Completed)) ∧
    (KeysAgree p → ∃ p', p.onEvent e = some p') := by
  refine ⟨?_, fun hk => onEvent_returns p e (hk.paired e.ID)⟩
  intro p' h
  obtain ⟨q, pp, _, rfl, _, hq⟩ := onEvent_tracked p p' e ht h
  have hlt : ¬ parsePhase e.Status ≥ AlreadyExistsPhase := not_le.2 hph
  refine ⟨_, captured_phaseProgress q e pp, ?_, ?_, ?_, ?_⟩
  · simp [phaseProgressAfter, hlt]
  · simp [phaseProgressAfter, hlt]
  · intro hn
    rcases hq with ⟨_, hpp⟩ | ⟨ls, _, _, rfl, _⟩
    · rw [hn] at hpp; cases hpp
    · simp [phaseProgressAfter, hlt]
  · intro pp0 hpp0
    rcases hq with ⟨_, hpp⟩ | ⟨ls, _, hn, _, _⟩
    · rw [hpp0] at hpp
      cases hpp
      simp [phaseProgressAfter, hlt]
    · rw [hn] at hpp0; cases hpp0

/-- Witness of C11: a "Pulling fs layer" event with progress detail 3/9 that registers the
layer "L2". -/
theorem onEvent_phaseProgress_overwrite_witness :
    tracked pulledL1 (ev "L2" "Pulling fs layer" 3 9) ∧
    parsePhase (ev "L2" "Pulling fs layer" 3 9).Status < AlreadyExistsPhase ∧
    ((∀ p', pulledL1.onEvent (ev "L2" "Pulling fs layer" 3 9) = some p' →
      ∃ m, (p'.Current (ev "L2" "Pulling fs layer" 3 9).ID).PhaseProgress = some m ∧
        m.N = (ev "L2" "Pulling fs layer" 3 9).ProgressDetail.Current ∧
        m.Total = (ev "L2" "Pulling fs layer" 3 9).ProgressDetail.Total ∧
        (pulledL1.phaseProgress (ev "L2" "Pulling fs layer" 3 9).ID = none →
          m.Completed = false) ∧
        (∀ pp, pulledL1.phaseProgress (ev "L2" "Pulling fs layer" 3 9).ID = some pp →
          m.Completed = pp.Completed)) ∧
    (KeysAgree pulledL1 → ∃ p', pulledL1.onEvent (ev "L2" "Pulling fs layer" 3 9) = some p')) :=
  ⟨by decide, by decide,
    onEvent_phaseProgress_overwrite pulledL1 (ev "L2" "Pulling fs layer" 3 9)
      (by decide) (by decide)⟩

/-- C12: when a tracked event classifies to exactly `DownloadingPhase`, every tracker
returned by `onEvent` has a download-progress counter for the event's layer whose `N` and
`Total` are the event's progress detail, whatever they were before. The call returns when
the tracker's maps agree on their keys. -/
theorem onEvent_downloadProgress_overwrite (p : PullStatus) (e : pullEvent) (ht : tracked p e)
    (hph : parsePhase e.Status = DownloadingPhase) :
    (∀ p', p.onEvent e = some p' →
      ∃ m, (p'.Current e.ID).DownloadProgress = some m ∧
        m.N = e.ProgressDetail.Current ∧ m.Total = e.ProgressDetail.Total) ∧
    (KeysAgree p → ∃ p', p.onEvent e = some p') := by
  refine ⟨?_, fun hk => onEvent_returns p e (hk.paired e.ID)⟩
  intro p' h
  obtain ⟨q, pp, _, rfl, hdl, _⟩ := onEvent_tracked p p' e ht h
  obtain ⟨dl, hd⟩ := Option.isSome_iff_exists.1 (hdl (Or.inl hph))
  refine ⟨downloadProgressAfter (parsePhase e.Status) e.ProgressDetail dl, ?_, ?_, ?_⟩
  · simp [PullStatus.Current, captured_downloadProgress, hd]
  · simp [downloadProgressAfter, hph]
  · simp [downloadProgressAfter, hph]

/-- Witness of C12: a "Downloading" event with progress detail 10/100 for the layer "L1",
whose download counter is at 100/100. -/
theorem onEvent_downloadProgress_overwrite_witness :
    tracked pulledL1 (ev "L1" "Downloading" 10 100) ∧
    parsePhase (ev "L1" "Downloading" 10 100).Status = DownloadingPhase ∧
    ((∀ p', pulledL1.onEvent (ev "L1" "Downloading" 10 100) = some p' →
      ∃ m, (p'.Current (ev "L1" "Downloading" 10 100).ID).DownloadProgress = some m ∧
        m.N = (ev "L1" "Downloading" 10 100).ProgressDetail.Current ∧
        m.Total = (ev "L1" "Downloading" 10 100).ProgressDetail.Total) ∧
    (KeysAgree pulledL1 → ∃ p', pulledL1.onEvent (ev "L1" "Downloading" 10 100) = some p')) :=
  ⟨by decide, by decide,
    onEvent_downloadProgress_overwrite pulledL1 (ev "L1" "Downloading" 10 100)
      (by decide) (by decide)⟩

/-- C13: an event with id `A` leaves `Current(B)` unchanged for every `B ≠ A`, and leaves
the layer list as it is or appends `A` to it, so the order of the ids already listed is
kept; the call returns when the tracker's maps agree on their keys. Events for the two
layers "L1", then "L2", then "L1" again give `Layers() = ["L1", "L2"]`, on a tracker whose
layer list is allocated and empty and on a new tracker after any event that carries the
image id. -/
theorem onEvent_independent (p : PullStatus) (e : pullEvent) (B : LayerID) (hB : B ≠ e.ID) :
    (∀ p', p.onEvent e = some p' →
      p'.Current B = p.Current B ∧
      (p'.Layers = p.Layers ∨ p'.Layers = p.Layers ++ [e.ID])) ∧
    (KeysAgree p → ∃ p', p.onEvent e = some p') ∧
    (∀ (q : PullStatus) (e1 e2 e3 : pullEvent), KeysAgree q → q.layers = some [] →
      e1.ID = "L1" → e2.ID = "L2" → e3.ID = "L1" →
      ∃ q', q.onEvents [e1, e2, e3] = some q' ∧ q'.Layers = ["L1", "L2"]) ∧
    (∀ (e0 e1 e2 e3 : pullEvent), e0.ID ≠ "" →
      e1.ID = "L1" → e2.ID = "L2" → e3.ID = "L1" →
      ∃ q', newPullStatus.onEvents [e0, e1, e2, e3] = some q' ∧
        q'.Layers = ["L1", "L2"]) := by
  have scenario : ∀ (q : PullStatus) (e1 e2 e3 : pullEvent), KeysAgree q →
      q.layers = some [] → e1.ID = "L1" → e2.ID = "L2" → e3.ID = "L1" →
      ∃ q', q.onEvents [e1, e2, e3] = some q' ∧ q'.Layers = ["L1", "L2"] := by
    intro q e1 e2 e3 hk hl h1 h2 h3
    obtain ⟨q', hq, _, hl'⟩ := onEvents_some [e1, e2, e3] q [] hk hl
    refine ⟨q', hq, ?_⟩
    simp only [PullStatus.Layers, hl', List.map, h1, h2, h3]
    decide
  refine ⟨?_, fun hk => onEvent_returns p e (hk.paired e.ID), scenario, ?_⟩
  · intro p' h
    obtain ⟨h1, h2, h3⟩ := onEvent_other p p' e h B hB
    refine ⟨by simp [PullStatus.Current, h1, h2, h3], ?_⟩
    rcases onEvent_Layers p p' e h with hl | ⟨_, hl⟩
    · exact Or.inl hl
    · exact Or.inr hl
  · intro e0 e1 e2 e3 h0 h1 h2 h3
    obtain ⟨q, hq, hk, hl⟩ := onEvent_step_none newPullStatus e0 KeysAgree_new rfl
    rw [if_neg h0] at hl
    obtain ⟨q', hq', hL⟩ := scenario q e1 e2 e3 hk hl h1 h2 h3
    refine ⟨q', ?_, hL⟩
    show (newPullStatus.onEvent e0).bind (fun p' => p'.onEvents [e1, e2, e3]) = some q'
    rw [hq]
    exact hq'

/-- Witness of C13: an event for "L2" on a tracker that holds the layer "L1". -/
theorem onEvent_independent_witness :
    "L1" ≠ (ev "L2" "Downloading" 5 9).ID ∧
    (newPullStatus.onEvents
      [ev "img1" "Waiting" 0 0, ev "L1" "Waiting" 0 0, ev "L2" "Waiting" 0 0,
       ev "L1" "Downloading" 1 2]).map PullStatus.Layers = some ["L1", "L2"] ∧
    ((∀ p', pulledL1.onEvent (ev "L2" "Downloading" 5 9) = some p' →
      p'.Current "L1" = pulledL1.Current "L1" ∧
      (p'.Layers = pulledL1.Layers ∨
        p'.Layers = pulledL1.Layers ++ [(ev "L2" "Downloading" 5 9).ID])) ∧
    (KeysAgree pulledL1 → ∃ p', pulledL1.onEvent (ev "L2" "Downloading" 5 9) = some p') ∧
    (∀ (q : PullStatus) (e1 e2 e3 : pullEvent), KeysAgree q → q.layers = some [] →
      e1.ID = "L1" → e2.ID = "L2" → e3.ID = "L1" →
      ∃ q', q.onEvents [e1, e2, e3] = some q' ∧ q'.Layers = ["L1", "L2"]) ∧
    (∀ (e0 e1 e2 e3 : pullEvent), e0.ID ≠ "" →
      e1.ID = "L1" → e2.ID = "L2" → e3.ID = "L1" →
      ∃ q', newPullStatus.onEvents [e0, e1, e2, e3] = some q' ∧
        q'.Layers = ["L1", "L2"])) :=
  ⟨by decide, by decide,
    onEvent_independent pulledL1 (ev "L2" "Downloading" 5 9) "L1" (by decide)⟩

/-- C14: the session of six events (no id; image id "img1"; "L1" waiting; "L1" downloading
50/100; "L1" download complete; "L1" pull complete) on a new tracker gives
`Layers() = ["L1"]`; right after the downloading event the download counter of "L1" reads
50, 100, not completed; right after the download-complete event it reads 100, 100,
completed; after the pull-complete event the phase-progress counter reports completed. -/
theorem concrete_session :
    (newPullStatus.onEvents
      [ev "" "Waiting" 0 0, ev "img1" "Waiting" 0 0, ev "L1" "Waiting" 0 0,
       ev "L1" "Downloading" 50 100, ev "L1" "Download complete" 0 0,
       ev "L1" "Pull complete" 0 0]).map PullStatus.Layers = some ["L1"] ∧
    (newPullStatus.onEvents
      [ev "" "Waiting" 0 0, ev "img1" "Waiting" 0 0, ev "L1" "Waiting" 0 0,
       ev "L1" "Downloading" 50 100]).map (fun p => (p.Current "L1").DownloadProgress) =
      some (some { N := 50, Total := 100, Completed := false }) ∧
    (newPullStatus.onEvents
      [ev "" "Waiting" 0 0, ev "img1" "Waiting" 0 0, ev "L1" "Waiting" 0 0,
       ev "L1" "Downloading" 50 100, ev "L1" "Download complete" 0 0]).map
        (fun p => (p.Current "L1").DownloadProgress) =
      some (some { N := 100, Total := 100, Completed := true }) ∧
    (newPullStatus.onEvents
      [ev "" "Waiting" 0 0, ev "img1" "Waiting" 0 0, ev "L1" "Waiting" 0 0,
       ev "L1" "Downloading" 50 100, ev "L1" "Download complete" 0 0,
       ev "L1" "Pull complete" 0 0]).map
        (fun p => Progressable.Completed (p.Current "L1").PhaseProgress) =
      some (some true) := by
  decide

/-- C15: `onEvent` does not touch the complete flag: every tracker it returns has the same
`Complete()` as before, it returns when the tracker's maps agree on their keys, and
`Complete()` is false on a new tracker. -/
theorem onEvent_Complete_unchanged (p : PullStatus) (e : pullEvent) :
    (∀ p', p.onEvent e = some p' → p'.Complete = p.Complete) ∧
    ((KeysAgree p) → ∃ p', p.onEvent e = some p') ∧
    newPullStatus.Complete = false :=
  ⟨fun p' h => onEvent_complete p p' e h,
    fun hk => onEvent_returns p e (hk.paired e.ID), rfl⟩

/-- C18: on a new tracker an event with a non-empty id `X` returns a tracker whose layer
list is allocated and empty and whose three maps are empty, so that `Current(X)` is the zero
state; the next event with the same id then registers `X`: `Layers() = [X]` and `X` has a
phase and both counters. -/
theorem first_id_asymmetry (e1 e2 : pullEvent) (h1 : e1.ID ≠ "") (h2 : e2.ID = e1.ID) :
    ∃ p1, newPullStatus.onEvent e1 = some p1 ∧
      p1.layers = some [] ∧ p1.Layers = [] ∧
      (∀ l, p1.phase l = none ∧ p1.phaseProgress l = none ∧ p1.downloadProgress l = none) ∧
      p1.Current e1.ID =
        { Phase := UnknownPhase, PhaseProgress := none, DownloadProgress := none } ∧
      ∃ p2, p1.onEvent e2 = some p2 ∧ p2.Layers = [e1.ID] ∧
        (p2.Current e1.ID).Phase = parsePhase e2.Status ∧
        p2.phase e1.ID = some (parsePhase e2.Status) ∧
        (∃ m, (p2.Current e1.ID).PhaseProgress = some m) ∧
        (∃ m, (p2.Current e1.ID).DownloadProgress = some m) := by
  refine ⟨{ newPullStatus with layers := some [] },
    onEvent_first newPullStatus e1 h1 rfl rfl, rfl, rfl, fun _ => ⟨rfl, rfl, rfl⟩, rfl, ?_⟩
  have hid : e2.ID ≠ "" := by rw [h2]; exact h1
  refine ⟨_, onEvent_new { newPullStatus with layers := some [] } e2 [] hid rfl rfl, ?_⟩
  rw [← h2]
  refine ⟨by simp [PullStatus.Layers, captured, registered], ?_, captured_phase _ _ _, ?_, ?_⟩
  · simp [PullStatus.Current, captured_phase]
  · exact ⟨_, captured_phaseProgress _ _ _⟩
  · refine ⟨downloadProgressAfter (parsePhase e2.Status) e2.ProgressDetail {}, ?_⟩
    simp [PullStatus.Current, captured_downloadProgress, registered_downloadProgress]

/-- Witness of C18: the id "img1" sent twice, the second time with a progress detail. -/
theorem first_id_asymmetry_witness :
    (ev "img1" "Pulling from library/alpine" 0 0).ID ≠ "" ∧
    (ev "img1" "Downloading" 5 10).ID = (ev "img1" "Pulling from library/alpine" 0 0).ID ∧
    ∃ p1, newPullStatus.onEvent (ev "img1" "Pulling from library/alpine" 0 0) = some p1 ∧
      p1.layers = some [] ∧ p1.Layers = [] ∧
      (∀ l, p1.phase l = none ∧ p1.phaseProgress l = none ∧ p1.downloadProgress l = none) ∧
      p1.Current (ev "img1" "Pulling from library/alpine" 0 0).ID =
        { Phase := UnknownPhase, PhaseProgress := none, DownloadProgress := none } ∧
      ∃ p2, p1.onEvent (ev "img1" "Downloading" 5 10) = some p2 ∧
        p2.Layers = [(ev "img1" "Pulling from library/alpine" 0 0).ID] ∧
        (p2.Current (ev "img1" "Pulling from library/alpine" 0 0).ID).Phase =
          parsePhase (ev "img1" "Downloading" 5 10).Status ∧
        p2.phase (ev "img1" "Pulling from library/alpine" 0 0).ID =
          some (parsePhase (ev "img1" "Downloading" 5 10).Status) ∧
        (∃ m, (p2.Current (ev "img1" "Pulling from library/alpine" 0 0).ID).PhaseProgress =
          some m) ∧
        (∃ m, (p2.Current (ev "img1" "Pulling from library/alpine" 0 0).ID).DownloadProgress =
          some m) :=
  ⟨by decide, by decide,
    first_id_asymmetry (ev "img1" "Pulling from library/alpine" 0 0)
      (ev "img1" "Downloading" 5 10) (by decide) (by decide)⟩

/-- C19: for a layer that already has its phase-progress counter `pp`, an event whose phase
is below `DownloadingPhase` makes `onEvent` return a tracker with the download-progress map
untouched (so the layer's download counter keeps current, total and completion, whatever
the event's progress detail is); the layer list, the complete flag and every other layer are
unchanged, and only the layer's phase and phase-progress counter are rewritten. -/
theorem onEvent_downloadProgress_untouched (p : PullStatus) (e : pullEvent) (pp : Manual)
    (hid : e.ID ≠ "") (hreg : p.phaseProgress e.ID = some pp)
    (hph : parsePhase e.Status < DownloadingPhase) :
    ∃ p', p.onEvent e = some p' ∧
      p'.downloadProgress = p.downloadProgress ∧
      (p'.Current e.ID).DownloadProgress = (p.Current e.ID).DownloadProgress ∧
      p'.layers = p.layers ∧ p'.complete = p.complete ∧
      (∀ B, B ≠ e.ID → p'.Current B = p.Current B) ∧
      (p'.Current e.ID).Phase = parsePhase e.Status ∧
      (p'.Current e.ID).PhaseProgress =
        some { pp with N := e.ProgressDetail.Current, Total := e.ProgressDetail.Total } := by
  have h3 : parsePhase e.Status ≠ DownloadingPhase := ne_of_lt hph
  have h4 : ¬ parsePhase e.Status ≥ DownloadCompletePhase := by
    intro h
    have : DownloadingPhase < DownloadCompletePhase := by decide
    exact absurd (lt_of_lt_of_le (lt_trans hph this) h) (lt_irrefl _)
  have h7 : ¬ parsePhase e.Status ≥ AlreadyExistsPhase := by
    intro h
    have : DownloadingPhase < AlreadyExistsPhase := by decide
    exact absurd (lt_of_lt_of_le (lt_trans hph this) h) (lt_irrefl _)
  have hret : p.onEvent e = some (captured p e pp) := by
    rw [onEvent_known p e pp hid hreg, captureLatest_eq_some_iff]
    exact ⟨pp, hreg, fun hneed => (hneed.elim (fun h => absurd h h3) (fun h => absurd h h4)), rfl⟩
  have hdl : (captured p e pp).downloadProgress = p.downloadProgress := by
    have hm : (p.downloadProgress e.ID).map
        (downloadProgressAfter (parsePhase e.Status) e.ProgressDetail) =
        p.downloadProgress e.ID := by
      cases p.downloadProgress e.ID with
      | none => rfl
      | some dl => simp [downloadProgressAfter, h3, h4]
    simp only [captured, hm]
    exact Function.update_eq_self _ _
  refine ⟨captured p e pp, hret, hdl, by simp [PullStatus.Current, hdl], rfl, rfl, ?_, ?_, ?_⟩
  · intro B hB
    obtain ⟨g1, g2, g3⟩ := captured_other p e pp B hB
    simp [PullStatus.Current, g1, g2, g3]
  · simp [PullStatus.Current, captured_phase]
  · simp [PullStatus.Current, captured_phaseProgress, phaseProgressAfter, h7]

/-- Witness of C19: a "Waiting" event with progress detail 7/9 for the layer "L1", whose
download counter is at 100/100, completed. -/
theorem onEvent_downloadProgress_untouched_witness :
    (ev "L1" "Waiting" 7 9).ID ≠ "" ∧
    pulledL1.phaseProgress (ev "L1" "Waiting" 7 9).ID =
      some { N := 0, Total := 0, Completed := true } ∧
    parsePhase (ev "L1" "Waiting" 7 9).Status < DownloadingPhase ∧
    (pulledL1.Current "L1").DownloadProgress =
      some { N := 100, Total := 100, Completed := true } ∧
    ∃ p', pulledL1.onEvent (ev "L1" "Waiting" 7 9) = some p' ∧
      p'.downloadProgress = pulledL1.downloadProgress ∧
      (p'.Current (ev "L1" "Waiting" 7 9).ID).DownloadProgress =
        (pulledL1.Current (ev "L1" "Waiting" 7 9).ID).DownloadProgress ∧
      p'.layers = pulledL1.layers ∧ p'.complete = pulledL1.complete ∧
      (∀ B, B ≠ (ev "L1" "Waiting" 7 9).ID → p'.Current B = pulledL1.Current B) ∧
      (p'.Current (ev "L1" "Waiting" 7 9).ID).Phase = parsePhase (ev "L1" "Waiting" 7 9).Status ∧
      (p'.Current (ev "L1" "Waiting" 7 9).ID).PhaseProgress =
        some { ({ N := 0, Total := 0, Completed := true } : Manual) with
          N := (ev "L1" "Waiting" 7 9).ProgressDetail.Current,
          Total := (ev "L1" "Waiting" 7 9).ProgressDetail.Total } :=
  ⟨by decide, by decide, by decide, by decide,
    onEvent_downloadProgress_untouched pulledL1 (ev "L1" "Waiting" 7 9)
      { N := 0, Total := 0, Completed := true } (by decide) (by decide) (by decide)⟩

/-- C20: for a layer that has its phase-progress counter, whatever events are ingested
afterwards the layer keeps both counters' completion: if the phase-progress counter
(respectively the download-progress counter) reports completed before the events, it reports
completed after them. The session returns when the tracker's maps agree on their keys. -/
theorem completed_sticky (p : PullStatus) (L : LayerID) (hreg : (p.phaseProgress L).isSome) :
    (∀ evs p', p.onEvents evs = some p' →
      (Progressable.Completed (p.Current L).PhaseProgress = some true →
        Progressable.Completed (p'.Current L).PhaseProgress = some true) ∧
      (Progressable.Completed (p.Current L).DownloadProgress = some true →
        Progressable.Completed (p'.Current L).DownloadProgress = some true)) ∧
    (KeysAgree p → ∀ evs, ∃ p', p.onEvents evs = some p') := by
  have conv : ∀ o : Option Manual,
      Progressable.Completed o = some true ↔ ∃ m, o = some m ∧ m.Completed = true := by
    intro o
    cases o with
    | none => simp [Progressable.Completed]
    | some m => simp [Progressable.Completed]
  refine ⟨?_, fun hk evs => onEvents_returns evs p hk⟩
  intro evs p' h
  obtain ⟨_, a, b⟩ := completed_sticky_session L evs p p' h hreg
  simp only [PullStatus.Current, conv]
  exact ⟨a, b⟩

/-- Witness of C20: the layer "L1" has completed its pull; a later "Downloading" event with
progress detail 10/100 rewrites current and total of the download counter and leaves it
completed. -/
theorem completed_sticky_witness :
    (pulledL1.phaseProgress "L1").isSome ∧
    (pulledL1.onEvents [ev "L1" "Downloading" 10 100]).map
      (fun p => (p.Current "L1").DownloadProgress) =
      some (some { N := 10, Total := 100, Completed := true }) ∧
    ((∀ evs p', pulledL1.onEvents evs = some p' →
      (Progressable.Completed (pulledL1.Current "L1").PhaseProgress = some true →
        Progressable.Completed (p'.Current "L1").PhaseProgress = some true) ∧
      (Progressable.Completed (pulledL1.Current "L1").DownloadProgress = some true →
        Progressable.Completed (p'.Current "L1").DownloadProgress = some true)) ∧
    (KeysAgree pulledL1 → ∀ evs, ∃ p', pulledL1.onEvents evs = some p')) :=
  ⟨by decide, by decide, completed_sticky pulledL1 "L1" (by decide)⟩

/-! ## The reference-level model: storage touched by `onEvent` and `Layers` -/

namespace Mem

theorem getD_set_other {α : Type} (l : List α) (i j : Nat) (v d : α) (h : i ≠ j) :
    (l.set i v).getD j d = l.getD j d := by
  simp [List.getElem?_set_ne h]

theorem getD_append_old {α : Type} (l l' : List α) (n : Nat) (d : α) (h : n < l.length) :
    (l ++ l').getD n d = l.getD n d :=
  List.getD_append l l' d n h

theorem getD_append_new {α : Type} (l : List α) (a d : α) :
    (l ++ [a]).getD l.length d = a := by
  simp

theorem modify_arrays {h h' : Heap} {a : Option Nat} {f : Manual → Manual}
    (hm : h.modify a f = some h') : h'.arrays = h.arrays := by
  cases a with
  | none => cases hm
  | some a =>
    simp only [Heap.modify, Option.map_eq_some'] at hm
    obtain ⟨m, _, rfl⟩ := hm
    rfl

/-- Lines 102-122 write the phase map and the counters behind the two pointers, nothing
else. -/
theorem captureLatest_frame {h h' : Heap} {p p' : PullStatus} {e : pullEvent}
    (hc : captureLatest h p e = some (h', p')) :
    h'.arrays = h.arrays ∧
      p' = { p with phase := Function.update p.phase e.ID (some (parsePhase e.Status)) } := by
  unfold captureLatest at hc
  simp only [Option.bind_eq_some] at hc
  obtain ⟨h1, hh1, hrest⟩ := hc
  have a1 : h1.arrays = h.arrays := by
    split at hh1
    · exact modify_arrays hh1
    · exact modify_arrays hh1
  split at hrest
  · simp only [Option.map_eq_some', Prod.mk.injEq] at hrest
    obtain ⟨h2, hm, rfl, rfl⟩ := hrest
    exact ⟨(modify_arrays hm).trans a1, rfl⟩
  · split at hrest
    · simp only [Option.map_eq_some', Prod.mk.injEq] at hrest
      obtain ⟨h2, hm, rfl, rfl⟩ := hrest
      exact ⟨(modify_arrays hm).trans a1, rfl⟩
    · simp only [Option.some.injEq, Prod.mk.injEq] at hrest
      obtain ⟨rfl, rfl⟩ := hrest
      exact ⟨a1, rfl⟩

/-- The built-in append writes into the array of its first argument or into a new array. -/
theorem append_storage (extra : Nat → Nat) (h : Heap) (s : Slice) (xs : List LayerID) :
    (h.append extra s xs).1.manuals = h.manuals ∧
    h.arrays.length ≤ (h.append extra s xs).1.arrays.length ∧
    ∀ a, a < h.arrays.length → a ≠ s.array →
      (h.append extra s xs).1.arrays.getD a [] = h.arrays.getD a [] := by
  unfold Heap.append
  split
  · refine ⟨rfl, by simp, ?_⟩
    intro a _ hne
    exact getD_set_other _ _ _ _ _ (Ne.symm hne)
  · refine ⟨rfl, by simp, ?_⟩
    intro a ha _
    exact getD_append_old _ _ _ _ ha

/-- What one call of `onEvent` can touch: it never shrinks the heap of arrays, it writes no
array other than the one of the tracker's own slice, it keeps the pointers of every layer
that has its phase-progress counter, and it keeps the complete flag. -/
theorem onEvent_storage {extra : Nat → Nat} {h h' : Heap} {p p' : PullStatus} {e : pullEvent}
    (ho : onEvent extra h p e = some (h', p')) :
    h.arrays.length ≤ h'.arrays.length ∧
    (∀ a, a < h.arrays.length → (∀ s, p.layers = some s → a ≠ s.array) →
      h'.arrays.getD a [] = h.arrays.getD a []) ∧
    (∀ L, (p.phaseProgress L).isSome →
      p'.phaseProgress L = p.phaseProgress L ∧ p'.downloadProgress L = p.downloadProgress L) ∧
    p'.complete = p.complete := by
  unfold onEvent at ho
  by_cases hid : e.ID = ""
  · simp only [hid, if_true, Option.some.injEq, Prod.mk.injEq] at ho
    obtain ⟨rfl, rfl⟩ := ho
    exact ⟨le_refl _, fun _ _ _ => rfl, fun _ _ => ⟨rfl, rfl⟩, rfl⟩
  · simp only [hid, if_false] at ho
    cases hpp : p.phaseProgress e.ID with
    | some a0 =>
      simp only [hpp] at ho
      obtain ⟨ha, rfl⟩ := captureLatest_frame ho
      exact ⟨by rw [ha], fun _ _ _ => by rw [ha], fun _ _ => ⟨rfl, rfl⟩, rfl⟩
    | none =>
      simp only [hpp] at ho
      cases hl : p.layers with
      | none =>
        simp only [hl, Option.some.injEq, Prod.mk.injEq] at ho
        obtain ⟨rfl, rfl⟩ := ho
        refine ⟨by simp [Heap.makeSlice], ?_, fun _ _ => ⟨rfl, rfl⟩, rfl⟩
        intro a ha _
        exact getD_append_old _ _ _ _ ha
      | some s =>
        simp only [hl] at ho
        obtain ⟨ha, rfl⟩ := captureLatest_frame ho
        obtain ⟨_, hlen, hget⟩ := append_storage extra h.newManual.1.newManual.1 s [e.ID]
        refine ⟨by rw [ha]; exact hlen, ?_, ?_, rfl⟩
        · intro a hlt hne
          rw [ha]
          exact hget a hlt (hne s rfl)
        · intro L hL
          have hne : L ≠ e.ID := by
            intro h0
            rw [h0, hpp] at hL
            cases hL
          simp [Function.update_noteq hne]

theorem elemsOf_old (h : Heap) (p : PullStatus) (hok : LayersOK h p) (new : List LayerID) :
    Heap.elemsOf { h with arrays := h.arrays ++ [new] } p.layers = h.elemsOf p.layers := by
  cases hl : p.layers with
  | none => rfl
  | some s =>
    simp only [Heap.elemsOf, Heap.elems]
    rw [getD_append_old _ _ _ _ (hok s hl).1]

/-- The built-in append returns a slice that lies in the heap and holds the elements of its
first argument followed by the appended ones; its array is the one of the first argument or a
new one. -/
theorem append_result (extra : Nat → Nat) (h : Heap) (s : Slice) (xs : List LayerID)
    (hs : SliceOK h s) :
    SliceOK (h.append extra s xs).1 (h.append extra s xs).2 ∧
    (h.append extra s xs).1.elems (h.append extra s xs).2 = h.elems s ++ xs ∧
    ((h.append extra s xs).2.array = s.array ∨
      (h.append extra s xs).2.array = h.arrays.length) := by
  obtain ⟨h1, h2, h3⟩ := hs
  have htake : (List.take s.len (h.arrays.getD s.array [])).length = s.len := by
    rw [List.length_take]; omega
  unfold Heap.append
  split
  · rename_i hfit
    have hget : (h.arrays.set s.array
        (List.take s.len (h.arrays.getD s.array []) ++ xs ++
          List.drop (s.len + xs.length) (h.arrays.getD s.array []))).getD s.array [] =
        List.take s.len (h.arrays.getD s.array []) ++ xs ++
          List.drop (s.len + xs.length) (h.arrays.getD s.array []) := by
      simp [List.getElem?_set_self h1]
    refine ⟨⟨by simpa using h1, hfit, ?_⟩, ?_, Or.inl rfl⟩
    · show (List.getD _ s.array []).length = s.cap
      rw [hget]
      simp only [List.length_append, List.length_drop, htake]
      omega
    · show List.take (s.len + xs.length) (List.getD _ s.array []) = _
      rw [hget, List.append_assoc, List.take_append_eq_append_take, htake]
      simp only [Heap.elems]
      rw [List.take_of_length_le (by rw [htake]; omega)]
      congr 1
      have : s.len + xs.length - s.len = xs.length := by omega
      rw [this, List.take_left]
  · refine ⟨⟨by simp, by simp, ?_⟩, ?_, Or.inr rfl⟩
    · show (List.getD (h.arrays ++ [_]) h.arrays.length []).length = _
      rw [getD_append_new]
      simp only [List.length_append, List.length_replicate, Heap.elems, htake]
    · show List.take (s.len + xs.length) (List.getD (h.arrays ++ [_]) h.arrays.length []) = _
      rw [getD_append_new]
      apply List.take_left'
      simp only [List.length_append, Heap.elems, htake]

/-- The slice returned by `Layers()` holds the tracker's layer ids in an array allocated by
the call; the call writes no array and no counter that existed before. -/
theorem Layers_fresh (extra : Nat → Nat) (h : Heap) (p : PullStatus) (hok : LayersOK h p) :
    (Layers extra h p).1.manuals = h.manuals ∧
    h.arrays.length ≤ (Layers extra h p).2.array ∧
    (Layers extra h p).2.array < (Layers extra h p).1.arrays.length ∧
    (∀ a, a < h.arrays.length → (Layers extra h p).1.arrays.getD a [] = h.arrays.getD a []) ∧
    (Layers extra h p).1.elems (Layers extra h p).2 = h.elemsOf p.layers := by
  have hx : h.makeSlice.1.elemsOf p.layers = h.elemsOf p.layers := elemsOf_old h p hok []
  have hlit : SliceOK h.makeSlice.1 h.makeSlice.2 := by
    refine ⟨by simp [Heap.makeSlice], le_refl _, ?_⟩
    show (List.getD (h.arrays ++ [[]]) h.arrays.length []).length = 0
    rw [getD_append_new]
    rfl
  have hlen : h.makeSlice.1.arrays.length = h.arrays.length + 1 := by simp [Heap.makeSlice]
  have harr : h.makeSlice.2.array = h.arrays.length := rfl
  obtain ⟨hok', hel, haddr⟩ :=
    append_result extra h.makeSlice.1 h.makeSlice.2 (h.makeSlice.1.elemsOf p.layers) hlit
  obtain ⟨hman, _, hget⟩ :=
    append_storage extra h.makeSlice.1 h.makeSlice.2 (h.makeSlice.1.elemsOf p.layers)
  refine ⟨hman, ?_, hok'.1, ?_, ?_⟩
  · show h.arrays.length ≤
      (h.makeSlice.1.append extra h.makeSlice.2 (h.makeSlice.1.elemsOf p.layers)).2.array
    rcases haddr with h0 | h0
    · rw [h0, harr]
    · rw [h0, hlen]; omega
  · intro a ha
    show (h.makeSlice.1.append extra h.makeSlice.2
      (h.makeSlice.1.elemsOf p.layers)).1.arrays.getD a [] = _
    rw [hget a (by rw [hlen]; omega) (by rw [harr]; omega)]
    exact getD_append_old _ _ _ _ ha
  · show (h.makeSlice.1.append extra h.makeSlice.2 (h.makeSlice.1.elemsOf p.layers)).1.elems
      (h.makeSlice.1.append extra h.makeSlice.2 (h.makeSlice.1.elemsOf p.layers)).2 = _
    rw [hel, hx]
    simp [Heap.elems, Heap.makeSlice]

theorem SliceOK_of_arrays {h h' : Heap} (ha : h'.arrays = h.arrays) {s : Slice}
    (hs : SliceOK h s) : SliceOK h' s := by
  unfold SliceOK at *
  rw [ha]
  exact hs

theorem makeSlice_ok (h : Heap) : SliceOK h.makeSlice.1 h.makeSlice.2 := by
  refine ⟨by simp [Heap.makeSlice], le_refl _, ?_⟩
  show (List.getD (h.arrays ++ [[]]) h.arrays.length []).length = 0
  rw [getD_append_new]
  rfl

/-- The tracker's slice stays in the heap along `onEvent`. -/
theorem onEvent_LayersOK {extra : Nat → Nat} {h h' : Heap} {p p' : PullStatus} {e : pullEvent}
    (ho : onEvent extra h p e = some (h', p')) (hok : LayersOK h p) : LayersOK h' p' := by
  unfold onEvent at ho
  by_cases hid : e.ID = ""
  · simp only [hid, if_true, Option.some.injEq, Prod.mk.injEq] at ho
    obtain ⟨rfl, rfl⟩ := ho
    exact hok
  · simp only [hid, if_false] at ho
    cases hpp : p.phaseProgress e.ID with
    | some a0 =>
      simp only [hpp] at ho
      obtain ⟨ha, rfl⟩ := captureLatest_frame ho
      intro s hs
      exact SliceOK_of_arrays ha (hok s hs)
    | none =>
      simp only [hpp] at ho
      cases hl : p.layers with
      | none =>
        simp only [hl, Option.some.injEq, Prod.mk.injEq] at ho
        obtain ⟨rfl, rfl⟩ := ho
        intro s hs
        simp only [Option.some.injEq] at hs
        subst hs
        exact makeSlice_ok h
      | some s =>
        simp only [hl] at ho
        obtain ⟨ha, rfl⟩ := captureLatest_frame ho
        have hs0 : SliceOK h.newManual.1.newManual.1 s :=
          SliceOK_of_arrays (h := h) rfl (hok s hl)
        obtain ⟨hok', _, _⟩ := append_result extra h.newManual.1.newManual.1 s [e.ID] hs0
        intro s' hs'
        simp only [Option.some.injEq] at hs'
        subst hs'
        exact SliceOK_of_arrays ha hok'

theorem LayersOK_new : LayersOK emptyHeap newPullStatus := by
  intro s hs
  cases hs

/-- The tracker's slice lies in the heap in every state a session reaches. -/
theorem onEvents_LayersOK (extra : Nat → Nat) (evs : List pullEvent) :
    ∀ (h h' : Heap) (p p' : PullStatus), onEvents extra h p evs = some (h', p') →
      LayersOK h p → LayersOK h' p' := by
  induction evs with
  | nil =>
    intro h h' p p' ho hok
    simp only [onEvents, Option.some.injEq, Prod.mk.injEq] at ho
    obtain ⟨rfl, rfl⟩ := ho
    exact hok
  | cons e es ih =>
    intro h h' p p' ho hok
    simp only [onEvents, Option.bind_eq_some] at ho
    obtain ⟨⟨h1, p1⟩, ho1, ho2⟩ := ho
    exact ih h1 h' p1 p' ho2 (onEvent_LayersOK ho1 hok)

/-- An assignment to an element of a slice writes the array of that slice only. -/
theorem store_storage {h h' : Heap} {r : Slice} {i : Nat} {v : LayerID}
    (hst : h.store r i v = some h') :
    h'.manuals = h.manuals ∧ h'.arrays.length = h.arrays.length ∧
      ∀ a, a ≠ r.array → h'.arrays.getD a [] = h.arrays.getD a [] := by
  unfold Heap.store at hst
  split at hst
  · simp only [Option.some.injEq] at hst
    subst hst
    refine ⟨rfl, by simp, ?_⟩
    intro a ha
    exact getD_set_other _ _ _ _ _ (Ne.symm ha)
  · cases hst

theorem load_modify {h h' : Heap} {a : Option Nat} {f : Manual → Manual}
    (hm : h.modify a f = some h') : h'.load a = (h.load a).map f := by
  cases a with
  | none => cases hm
  | some a =>
    simp only [Heap.modify, Option.map_eq_some'] at hm
    obtain ⟨m, hget, rfl⟩ := hm
    have hlt : a < h.manuals.length := by
      rw [List.get?_eq_getElem?] at hget
      exact (List.getElem?_eq_some_iff.1 hget).1
    rw [List.get?_eq_getElem?] at hget
    show (h.manuals.set a (f m)).get? a = Option.map f (h.manuals.get? a)
    rw [List.get?_eq_getElem?, List.get?_eq_getElem?, List.getElem?_set_self hlt, hget]
    rfl

/-- The layer list of the tracker read as a value is the list of elements of its slice. -/
theorem abs_Layers (h : Heap) (p : PullStatus) : (abs h p).Layers = h.elemsOf p.layers := by
  cases hl : p.layers with
  | none => simp [PullStatus.Layers, abs, Heap.elemsOf, hl]
  | some s => simp [PullStatus.Layers, abs, Heap.elemsOf, hl]

/-! ### The reference-level model refines the value-level one -/

theorem load_some_of_lt (h : Heap) (a : Nat) (ha : a < h.manuals.length) :
    ∃ m, h.load (some a) = some m := by
  refine ⟨h.manuals[a], ?_⟩
  show h.manuals.get? a = _
  rw [List.get?_eq_getElem?, List.getElem?_eq_getElem ha]

theorem modify_some {h : Heap} {a : Nat} {m : Manual} (f : Manual → Manual)
    (hl : h.load (some a) = some m) :
    h.modify (some a) f = some { h with manuals := h.manuals.set a (f m) } := by
  have hl' : h.manuals.get? a = some m := hl
  show (h.manuals.get? a).map _ = _
  rw [hl']
  rfl

theorem load_set_same {h : Heap} {a : Nat} {m : Manual} (v : Manual)
    (hl : h.load (some a) = some m) :
    Heap.load { h with manuals := h.manuals.set a v } (some a) = some v := by
  have hl' : h.manuals.get? a = some m := hl
  rw [List.get?_eq_getElem?] at hl'
  have hlt : a < h.manuals.length := (List.getElem?_eq_some_iff.1 hl').1
  show (h.manuals.set a v).get? a = some v
  rw [List.get?_eq_getElem?, List.getElem?_set_self hlt]

theorem load_set_other (h : Heap) (a : Nat) (v : Manual) (b : Option Nat)
    (hb : b ≠ some a) :
    Heap.load { h with manuals := h.manuals.set a v } b = h.load b := by
  cases b with
  | none => rfl
  | some b =>
    have hne : a ≠ b := fun h0 => hb (by rw [h0])
    show (h.manuals.set a v).get? b = h.manuals.get? b
    rw [List.get?_eq_getElem?, List.get?_eq_getElem?, List.getElem?_set_ne hne]

/-- Lines 105-122 as two in-place updates: the phase-progress counter by
`phaseProgressAfter`, then, from `DownloadingPhase` on, the download counter by
`downloadProgressAfter`. -/
theorem captureLatest_eq (h : Heap) (p : PullStatus) (e : pullEvent) :
    captureLatest h p e =
      (h.modify (p.phaseProgress e.ID)
        (phaseProgressAfter (parsePhase e.Status) e.ProgressDetail)).bind (fun h1 =>
        if parsePhase e.Status = DownloadingPhase ∨
            parsePhase e.Status ≥ DownloadCompletePhase then
          (h1.modify (p.downloadProgress e.ID)
            (downloadProgressAfter (parsePhase e.Status) e.ProgressDetail)).map (fun h2 =>
              (h2, { p with
                phase := Function.update p.phase e.ID (some (parsePhase e.Status)) }))
        else
          some (h1, { p with
            phase := Function.update p.phase e.ID (some (parsePhase e.Status)) })) := by
  have hpp : (if parsePhase e.Status ≥ AlreadyExistsPhase then
        h.modify (p.phaseProgress e.ID) (fun m => m.SetCompleted)
      else
        h.modify (p.phaseProgress e.ID) (fun m =>
          { m with N := e.ProgressDetail.Current, Total := e.ProgressDetail.Total })) =
      h.modify (p.phaseProgress e.ID)
        (phaseProgressAfter (parsePhase e.Status) e.ProgressDetail) := by
    by_cases h7 : parsePhase e.Status ≥ AlreadyExistsPhase
    · rw [if_pos h7]
      congr 1
      funext m
      simp [phaseProgressAfter, h7]
    · rw [if_neg h7]
      congr 1
      funext m
      simp [phaseProgressAfter, h7]
  unfold captureLatest
  simp only [hpp]
  congr 1
  funext h1
  by_cases h3 : parsePhase e.Status = DownloadingPhase
  · have hf : (fun m : Manual =>
        ({ m with N := e.ProgressDetail.Current, Total := e.ProgressDetail.Total } : Manual)) =
        downloadProgressAfter (parsePhase e.Status) e.ProgressDetail := by
      funext m
      simp [downloadProgressAfter, h3]
    simp only [h3, true_or, if_true]
    rw [← h3, ← hf]
  · by_cases h4 : parsePhase e.Status ≥ DownloadCompletePhase
    · have hf : (fun m : Manual => ({ m with N := m.Total } : Manual).SetCompleted) =
          downloadProgressAfter (parsePhase e.Status) e.ProgressDetail := by
        funext m
        simp [downloadProgressAfter, h3, h4]
      simp only [h3, h4, if_false, if_true, or_true, hf]
    · simp only [h3, h4, if_false, or_self]

theorem elems_of_arrays {h h' : Heap} (ha : h'.arrays = h.arrays) (s : Option Slice) :
    s.map h'.elems = s.map h.elems := by
  cases s with
  | none => rfl
  | some s => simp [Heap.elems, ha]

theorem downloadProgressAfter_skip (ph : PullPhase) (d : progressDetail) (m : Manual)
    (hno : ¬ (ph = DownloadingPhase ∨ ph ≥ DownloadCompletePhase)) :
    downloadProgressAfter ph d m = m := by
  unfold downloadProgressAfter
  rw [if_neg (fun h => hno (Or.inl h)), if_neg (fun h => hno (Or.inr h))]

/-- The value of the tracker after lines 102-122, from what the final heap holds. -/
theorem abs_captured (h hf : Heap) (p : PullStatus) (e : pullEvent) (a : Nat) (m : Manual)
    (hp : PointersOK h p) (hpa : p.phaseProgress e.ID = some a)
    (h1 : hf.load (some a) =
      some (phaseProgressAfter (parsePhase e.Status) e.ProgressDetail m))
    (h2 : hf.load (p.downloadProgress e.ID) =
      (h.load (p.downloadProgress e.ID)).map
        (downloadProgressAfter (parsePhase e.Status) e.ProgressDetail))
    (h3 : ∀ c, c ≠ some a → c ≠ p.downloadProgress e.ID → hf.load c = h.load c)
    (h4 : hf.arrays = h.arrays) :
    abs hf { p with phase := Function.update p.phase e.ID (some (parsePhase e.Status)) } =
      captured (abs h p) e m := by
  obtain ⟨_, _, i1, i2, i3⟩ := hp
  have hpp : (fun l => hf.load (p.phaseProgress l)) =
      Function.update (fun l => h.load (p.phaseProgress l)) e.ID
        (some (phaseProgressAfter (parsePhase e.Status) e.ProgressDetail m)) := by
    funext l
    by_cases hl : l = e.ID
    · subst hl
      rw [Function.update_same, hpa, h1]
    · rw [Function.update_noteq hl]
      cases hq : p.phaseProgress l with
      | none => rfl
      | some c =>
        apply h3
        · intro hc
          rw [Option.some.injEq] at hc
          subst hc
          exact hl (i1 l e.ID c hq hpa)
        · intro hc
          exact i3 l e.ID c hq hc.symm
  have hdl : (fun l => hf.load (p.downloadProgress l)) =
      Function.update (fun l => h.load (p.downloadProgress l)) e.ID
        ((h.load (p.downloadProgress e.ID)).map
          (downloadProgressAfter (parsePhase e.Status) e.ProgressDetail)) := by
    funext l
    by_cases hl : l = e.ID
    · subst hl
      rw [Function.update_same, h2]
    · rw [Function.update_noteq hl]
      cases hq : p.downloadProgress l with
      | none => rfl
      | some c =>
        apply h3
        · intro hc
          rw [Option.some.injEq] at hc
          subst hc
          exact i3 e.ID l c hpa hq
        · intro hc
          exact hl (i2 l e.ID c hq hc.symm)
  simp only [abs, captured, hpp, hdl, elems_of_arrays h4]

theorem value_captureLatest_none (q : Docker.PullStatus) (e : pullEvent)
    (hno : q.phaseProgress e.ID = none ∨
      ((parsePhase e.Status = DownloadingPhase ∨ parsePhase e.Status ≥ DownloadCompletePhase) ∧
        q.downloadProgress e.ID = none)) :
    q.captureLatest e = none := by
  cases hc : q.captureLatest e with
  | none => rfl
  | some q' =>
    obtain ⟨pp, h1, h2, _⟩ := (captureLatest_eq_some_iff q q' e).1 hc
    rcases hno with hn | ⟨hneed, hn⟩
    · rw [hn] at h1; cases h1
    · have := h2 hneed
      rw [hn] at this
      cases this

theorem PointersOK_of_same {h h' : Heap} {p p' : PullStatus}
    (hlen : h'.manuals.length = h.manuals.length)
    (h1 : p'.phaseProgress = p.phaseProgress) (h2 : p'.downloadProgress = p.downloadProgress)
    (hp : PointersOK h p) : PointersOK h' p' := by
  unfold PointersOK at *
  rw [h1, h2, hlen]
  exact hp

/-- An in-place update through an allocated pointer: it succeeds, the counter behind the
pointer is updated and nothing else in the heap changes. -/
theorem modify_spec (h : Heap) (a : Nat) (m : Manual) (f : Manual → Manual)
    (hl : h.load (some a) = some m) :
    ∃ h1, h.modify (some a) f = some h1 ∧ h1.load (some a) = some (f m) ∧
      (∀ c, c ≠ some a → h1.load c = h.load c) ∧
      h1.manuals.length = h.manuals.length ∧ h1.arrays = h.arrays :=
  ⟨_, modify_some f hl, load_set_same _ hl, fun c hc => load_set_other h a _ c hc,
    by simp, rfl⟩

/-- Lines 102-122 at the reference level compute what they compute at the value level, and
keep the pointers allocated and distinct. -/
theorem captureLatest_refines (h : Heap) (p : PullStatus) (e : pullEvent)
    (hp : PointersOK h p) :
    (captureLatest h p e).map (fun hp => abs hp.1 hp.2) =
      Docker.PullStatus.captureLatest (abs h p) e ∧
    ∀ h' p', captureLatest h p e = some (h', p') → PointersOK h' p' := by
  rw [captureLatest_eq]
  cases hpa : p.phaseProgress e.ID with
  | none =>
    refine ⟨?_, fun h' p' hc => by simp [Heap.modify] at hc⟩
    rw [value_captureLatest_none _ _ (Or.inl (by simp [abs, hpa, Heap.load]))]
    simp [Heap.modify]
  | some a =>
    obtain ⟨m, hm⟩ := load_some_of_lt h a (hp.1 e.ID a hpa)
    have habs : (abs h p).phaseProgress e.ID = some m := by simp only [abs, hpa, hm]
    obtain ⟨h1, hmod1, hl1, ho1, hlen1, harr1⟩ :=
      modify_spec h a m (phaseProgressAfter (parsePhase e.Status) e.ProgressDetail) hm
    rw [hmod1]
    simp only [Option.some_bind]
    by_cases hneed : parsePhase e.Status = DownloadingPhase ∨
        parsePhase e.Status ≥ DownloadCompletePhase
    · rw [if_pos hneed]
      cases hdb : p.downloadProgress e.ID with
      | none =>
        refine ⟨?_, fun h' p' hc => by simp [Heap.modify] at hc⟩
        rw [value_captureLatest_none _ _ (Or.inr ⟨hneed, by simp [abs, hdb, Heap.load]⟩)]
        simp [Heap.modify]
      | some b =>
        obtain ⟨d, hd⟩ := load_some_of_lt h b (hp.2.1 e.ID b hdb)
        have hba : (some b : Option Nat) ≠ some a := by
          intro h0
          exact hp.2.2.2.2 e.ID e.ID a hpa (by rw [hdb, h0])
        have hd1 : h1.load (some b) = some d := by rw [ho1 _ hba, hd]
        obtain ⟨h2, hmod2, hl2, ho2, hlen2, harr2⟩ :=
          modify_spec h1 b d (downloadProgressAfter (parsePhase e.Status) e.ProgressDetail) hd1
        rw [hmod2]
        simp only [Option.map_some']
        constructor
        · have hval : (abs h p).captureLatest e = some (captured (abs h p) e m) :=
            (captureLatest_eq_some_iff _ _ e).2
              ⟨m, habs, fun _ => by simp [abs, hdb, hd], rfl⟩
          rw [hval]
          congr 1
          apply abs_captured h h2 p e a m hp hpa
          · rw [ho2 _ (Ne.symm hba)]
            exact hl1
          · rw [hdb, hd]
            exact hl2
          · intro c hca hcb
            rw [hdb] at hcb
            rw [ho2 c hcb, ho1 c hca]
          · rw [harr2, harr1]
        · intro h' p' hc
          simp only [Option.some.injEq, Prod.mk.injEq] at hc
          obtain ⟨rfl, rfl⟩ := hc
          exact PointersOK_of_same (by rw [hlen2, hlen1]) rfl rfl hp
    · rw [if_neg hneed]
      simp only [Option.map_some']
      constructor
      · have hval : (abs h p).captureLatest e = some (captured (abs h p) e m) :=
          (captureLatest_eq_some_iff _ _ e).2 ⟨m, habs, fun h0 => absurd h0 hneed, rfl⟩
        rw [hval]
        congr 1
        have hdn : p.downloadProgress e.ID ≠ some a := by
          intro h0
          exact hp.2.2.2.2 e.ID e.ID a hpa h0
        apply abs_captured h h1 p e a m hp hpa
        · exact hl1
        · rw [ho1 _ hdn]
          cases h.load (p.downloadProgress e.ID) with
          | none => rfl
          | some d => simp [downloadProgressAfter_skip _ _ _ hneed]
        · intro c hca _
          exact ho1 c hca
        · exact harr1
      · intro h' p' hc
        simp only [Option.some.injEq, Prod.mk.injEq] at hc
        obtain ⟨rfl, rfl⟩ := hc
        exact PointersOK_of_same hlen1 rfl rfl hp

theorem load_newManual_old (h : Heap) (c : Option Nat)
    (hc : ∀ a, c = some a → a < h.manuals.length) : h.newManual.1.load c = h.load c := by
  cases c with
  | none => rfl
  | some a =>
    show (h.manuals ++ [({} : Manual)]).get? a = h.manuals.get? a
    rw [List.get?_eq_getElem?, List.get?_eq_getElem?, List.getElem?_append_left (hc a rfl)]

theorem load_newManual_new (h : Heap) :
    h.newManual.1.load (some h.newManual.2) = some {} := by
  show (h.manuals ++ [({} : Manual)]).get? h.manuals.length = some {}
  rw [List.get?_eq_getElem?, List.getElem?_concat_length]

/-- The heap and tracker after the registration block (lines 96-99). -/
theorem registration_refines (extra : Nat → Nat) (h : Heap) (p : PullStatus) (l : LayerID)
    (s : Slice) (hp : PointersOK h p) (hs : SliceOK h s) (hpp : p.phaseProgress l = none) :
    PointersOK (h.newManual.1.newManual.1.append extra s [l]).1
      { p with
        phaseProgress := Function.update p.phaseProgress l (some h.newManual.2)
        downloadProgress :=
          Function.update p.downloadProgress l (some h.newManual.1.newManual.2)
        layers := some (h.newManual.1.newManual.1.append extra s [l]).2 } ∧
    abs (h.newManual.1.newManual.1.append extra s [l]).1
      { p with
        phaseProgress := Function.update p.phaseProgress l (some h.newManual.2)
        downloadProgress :=
          Function.update p.downloadProgress l (some h.newManual.1.newManual.2)
        layers := some (h.newManual.1.newManual.1.append extra s [l]).2 } =
      registered (abs h p) l (h.elems s) := by
  obtain ⟨b1, b2, i1, i2, i3⟩ := hp
  obtain ⟨hman, _, _⟩ := append_storage extra h.newManual.1.newManual.1 s [l]
  have hs2 : SliceOK h.newManual.1.newManual.1 s := SliceOK_of_arrays (h := h) rfl hs
  obtain ⟨_, hel, _⟩ := append_result extra h.newManual.1.newManual.1 s [l] hs2
  have hlen : (h.newManual.1.newManual.1.append extra s [l]).1.manuals.length =
      h.manuals.length + 2 := by
    rw [hman]
    simp [Heap.newManual]
  have hload : ∀ c, (h.newManual.1.newManual.1.append extra s [l]).1.load c =
      h.newManual.1.newManual.1.load c := by
    intro c
    unfold Heap.load
    rw [hman]
  have ha1 : h.newManual.2 = h.manuals.length := rfl
  have ha2 : h.newManual.1.newManual.2 = h.manuals.length + 1 := by simp [Heap.newManual]
  constructor
  · refine ⟨?_, ?_, ?_, ?_, ?_⟩
    · intro l' a hq
      rw [hlen]
      by_cases hl : l' = l
      · subst hl
        simp only [Function.update_same, Option.some.injEq] at hq
        rw [← hq, ha1]; omega
      · simp only [Function.update_noteq hl] at hq
        have := b1 l' a hq
        omega
    · intro l' a hq
      rw [hlen]
      by_cases hl : l' = l
      · subst hl
        simp only [Function.update_same, Option.some.injEq] at hq
        rw [← hq, ha2]; omega
      · simp only [Function.update_noteq hl] at hq
        have := b2 l' a hq
        omega
    · intro l1 l2 a hq1 hq2
      by_cases hl1 : l1 = l <;> by_cases hl2 : l2 = l
      · rw [hl1, hl2]
      · subst hl1
        simp only [Function.update_same, Option.some.injEq, Function.update_noteq hl2] at hq1 hq2
        have := b1 l2 a hq2
        rw [← hq1, ha1] at this
        omega
      · subst hl2
        simp only [Function.update_same, Option.some.injEq, Function.update_noteq hl1] at hq1 hq2
        have := b1 l1 a hq1
        rw [← hq2, ha1] at this
        omega
      · simp only [Function.update_noteq hl1, Function.update_noteq hl2] at hq1 hq2
        exact i1 l1 l2 a hq1 hq2
    · intro l1 l2 a hq1 hq2
      by_cases hl1 : l1 = l <;> by_cases hl2 : l2 = l
      · rw [hl1, hl2]
      · subst hl1
        simp only [Function.update_same, Option.some.injEq, Function.update_noteq hl2] at hq1 hq2
        have := b2 l2 a hq2
        rw [← hq1, ha2] at this
        omega
      · subst hl2
        simp only [Function.update_same, Option.some.injEq, Function.update_noteq hl1] at hq1 hq2
        have := b2 l1 a hq1
        rw [← hq2, ha2] at this
        omega
      · simp only [Function.update_noteq hl1, Function.update_noteq hl2] at hq1 hq2
        exact i2 l1 l2 a hq1 hq2
    · intro l1 l2 a hq1 hq2
      by_cases hl1 : l1 = l <;> by_cases hl2 : l2 = l
      · subst hl1
        subst hl2
        simp only [Function.update_same, Option.some.injEq] at hq1 hq2
        rw [ha1] at hq1
        rw [ha2] at hq2
        omega
      · subst hl1
        simp only [Function.update_same, Option.some.injEq, Function.update_noteq hl2] at hq1 hq2
        have := b2 l2 a hq2
        rw [← hq1, ha1] at this
        omega
      · subst hl2
        simp only [Function.update_same, Option.some.injEq, Function.update_noteq hl1] at hq1 hq2
        have := b1 l1 a hq1
        rw [← hq2, ha2] at this
        omega
      · simp only [Function.update_noteq hl1, Function.update_noteq hl2] at hq1 hq2
        exact i3 l1 l2 a hq1 hq2
  · have hold : ∀ c : Option Nat, (∀ a, c = some a → a < h.manuals.length) →
        (h.newManual.1.newManual.1.append extra s [l]).1.load c = h.load c := by
      intro c hc
      rw [hload, load_newManual_old _ c (fun a ha => by
        have := hc a ha
        simp [Heap.newManual]
        omega), load_newManual_old h c hc]
    have hpp' : (fun l' => (h.newManual.1.newManual.1.append extra s [l]).1.load
        (Function.update p.phaseProgress l (some h.newManual.2) l')) =
        Function.update (fun l' => h.load (p.phaseProgress l')) l (some {}) := by
      funext l'
      by_cases hl : l' = l
      · subst hl
        rw [Function.update_same, Function.update_same, hload,
          load_newManual_old _ _ (fun a ha => by
            rw [Option.some.injEq] at ha
            rw [← ha, ha1]
            simp [Heap.newManual])]
        exact load_newManual_new h
      · rw [Function.update_noteq hl, Function.update_noteq hl]
        exact hold _ (fun a ha => b1 l' a ha)
    have hdl' : (fun l' => (h.newManual.1.newManual.1.append extra s [l]).1.load
        (Function.update p.downloadProgress l (some h.newManual.1.newManual.2) l')) =
        Function.update (fun l' => h.load (p.downloadProgress l')) l (some {}) := by
      funext l'
      by_cases hl : l' = l
      · subst hl
        rw [Function.update_same, Function.update_same, hload]
        exact load_newManual_new h.newManual.1
      · rw [Function.update_noteq hl, Function.update_noteq hl]
        exact hold _ (fun a ha => b2 l' a ha)
    have hel' : (h.newManual.1.newManual.1.append extra s [l]).1.elems
        (h.newManual.1.newManual.1.append extra s [l]).2 = h.elems s ++ [l] := hel
    simp only [abs, registered, hpp', hdl', Option.map_some', hel']

/-- One call of `onEvent` at the reference level computes what the value-level `onEvent`
computes on the tracker read as a value (panics included), and keeps the heap invariants. -/
theorem onEvent_refines (extra : Nat → Nat) (h : Heap) (p : PullStatus) (e : pullEvent)
    (hp : PointersOK h p) (hl : LayersOK h p) :
    (onEvent extra h p e).map (fun hp => abs hp.1 hp.2) =
      Docker.PullStatus.onEvent (abs h p) e ∧
    ∀ h' p', onEvent extra h p e = some (h', p') → PointersOK h' p' ∧ LayersOK h' p' := by
  have hlay : ∀ h' p', onEvent extra h p e = some (h', p') → LayersOK h' p' :=
    fun h' p' ho => onEvent_LayersOK ho hl
  by_cases hid : e.ID = ""
  · have hm : onEvent extra h p e = some (h, p) := by simp [onEvent, hid]
    rw [hm, onEvent_empty_id_aux _ e hid]
    refine ⟨rfl, fun h' p' hc => ?_⟩
    simp only [Option.some.injEq, Prod.mk.injEq] at hc
    obtain ⟨rfl, rfl⟩ := hc
    exact ⟨hp, hl⟩
  · cases hpp : p.phaseProgress e.ID with
    | some a =>
      obtain ⟨m, hm⟩ := load_some_of_lt h a (hp.1 e.ID a hpp)
      have hme : onEvent extra h p e = captureLatest h p e := by simp [onEvent, hid, hpp]
      have hval : (abs h p).onEvent e = (abs h p).captureLatest e :=
        onEvent_known (abs h p) e m hid (by simp only [abs, hpp, hm])
      obtain ⟨r1, r2⟩ := captureLatest_refines h p e hp
      rw [hme, hval]
      exact ⟨r1, fun h' p' hc => ⟨r2 h' p' hc, hlay h' p' (hme.trans hc)⟩⟩
    | none =>
      have habs : (abs h p).phaseProgress e.ID = none := by simp [abs, hpp, Heap.load]
      cases hls : p.layers with
      | none =>
        have hme : onEvent extra h p e =
            some (h.makeSlice.1, { p with layers := some h.makeSlice.2 }) := by
          simp [onEvent, hid, hpp, hls]
        rw [hme, onEvent_first (abs h p) e hid habs (by simp [abs, hls])]
        refine ⟨?_, fun h' p' hc => ?_⟩
        · simp [abs, Heap.makeSlice, Heap.elems, Heap.load]
        · have hc' := hc
          simp only [Option.some.injEq, Prod.mk.injEq] at hc
          obtain ⟨rfl, rfl⟩ := hc
          exact ⟨PointersOK_of_same (h := h) (p := p) rfl rfl rfl hp, hlay _ _ (hme.trans hc')⟩
      | some s =>
        have hme : onEvent extra h p e =
            captureLatest (h.newManual.1.newManual.1.append extra s [e.ID]).1
              { p with
                phaseProgress := Function.update p.phaseProgress e.ID (some h.newManual.2)
                downloadProgress :=
                  Function.update p.downloadProgress e.ID (some h.newManual.1.newManual.2)
                layers := some (h.newManual.1.newManual.1.append extra s [e.ID]).2 }
              e := by
          simp [onEvent, hid, hpp, hls]
        have hval : (abs h p).onEvent e =
            (registered (abs h p) e.ID (h.elems s)).captureLatest e := by
          have hla : (abs h p).layers = some (h.elems s) := by simp [abs, hls]
          simp [PullStatus.onEvent, hid, habs, hla, registered]
        obtain ⟨q1, q2⟩ := registration_refines extra h p e.ID s hp (hl s hls) hpp
        obtain ⟨r1, r2⟩ := captureLatest_refines _ _ e q1
        rw [hme, hval, ← q2]
        exact ⟨r1, fun h' p' hc => ⟨r2 h' p' hc, hlay h' p' (hme.trans hc)⟩⟩

theorem PointersOK_new : PointersOK emptyHeap newPullStatus := by
  refine ⟨?_, ?_, ?_, ?_, ?_⟩ <;> intros <;> simp_all [newPullStatus]

/-- A session at the reference level, started in any state that satisfies the heap
invariants, computes what the value-level session computes on the trackers read as values. -/
theorem onEvents_refines (extra : Nat → Nat) (evs : List pullEvent) :
    ∀ (h : Heap) (p : PullStatus), PointersOK h p → LayersOK h p →
      (onEvents extra h p evs).map (fun hp => abs hp.1 hp.2) =
        Docker.PullStatus.onEvents (abs h p) evs ∧
      ∀ h' p', onEvents extra h p evs = some (h', p') → PointersOK h' p' ∧ LayersOK h' p' := by
  induction evs with
  | nil =>
    intro h p hp hl
    refine ⟨rfl, fun h' p' hc => ?_⟩
    simp only [onEvents, Option.some.injEq, Prod.mk.injEq] at hc
    obtain ⟨rfl, rfl⟩ := hc
    exact ⟨hp, hl⟩
  | cons e es ih =>
    intro h p hp hl
    obtain ⟨r1, r2⟩ := onEvent_refines extra h p e hp hl
    simp only [onEvents, PullStatus.onEvents]
    rw [← r1]
    cases ho : onEvent extra h p e with
    | none => exact ⟨rfl, fun h' p' hc => by simp at hc⟩
    | some hp1 =>
      obtain ⟨h1, p1⟩ := hp1
      obtain ⟨k1, k2⟩ := r2 h1 p1 ho
      simpa using ih h1 p1 k1 k2

/-- A new tracker over the empty heap is the new value-level tracker, and every session from
it computes, read as a value, what the value-level session computes. -/
theorem new_session_refines (extra : Nat → Nat) (evs : List pullEvent) :
    abs emptyHeap newPullStatus = Docker.newPullStatus ∧
    (onEvents extra emptyHeap newPullStatus evs).map (fun hp => abs hp.1 hp.2) =
      Docker.newPullStatus.onEvents evs := by
  have h0 : abs emptyHeap newPullStatus = Docker.newPullStatus := rfl
  refine ⟨h0, ?_⟩
  rw [← h0]
  exact (onEvents_refines extra evs emptyHeap newPullStatus PointersOK_new LayersOK_new).1

/-! ### Copies and live references -/

theorem load_of_manuals {h h' : Heap} (hm : h'.manuals = h.manuals) (c : Option Nat) :
    h'.load c = h.load c := by
  unfold Heap.load
  rw [hm]

theorem abs_of_same {h h' : Heap} (p : PullStatus) (hm : h'.manuals = h.manuals)
    (hs : ∀ s, p.layers = some s → h'.elems s = h.elems s) : abs h' p = abs h p := by
  have hl : p.layers.map h'.elems = p.layers.map h.elems := by
    cases hp : p.layers with
    | none => rfl
    | some s => simp [hs s hp]
  have h1 : (fun l => h'.load (p.phaseProgress l)) = fun l => h.load (p.phaseProgress l) :=
    funext (fun l => load_of_manuals hm _)
  have h2 : (fun l => h'.load (p.downloadProgress l)) =
      fun l => h.load (p.downloadProgress l) :=
    funext (fun l => load_of_manuals hm _)
  simp only [abs, hl, h1, h2]

/-- Counterexample to C16 as stated: the `LayerState` returned by `Current("L1")` holds the
tracker's own counter. Read right away, its download counter is 0/0; the same value read
after a later `onEvent` call with a "Downloading" event 50/100 is 50/100, and the
phase-progress counter of the same value has changed as well. -/
theorem Current_counters_are_live :
    registeredL1.1.load (Current registeredL1.2 "L1").DownloadProgress =
      some { N := 0, Total := 0, Completed := false } ∧
    (onEvent (fun n => n) registeredL1.1 registeredL1.2 (ev "L1" "Downloading" 50 100)).map
      (fun hp => hp.1.load (Current registeredL1.2 "L1").DownloadProgress) =
      some (some { N := 50, Total := 100, Completed := false }) ∧
    registeredL1.1.load (Current registeredL1.2 "L1").PhaseProgress =
      some { N := 0, Total := 0, Completed := false } ∧
    (onEvent (fun n => n) registeredL1.1 registeredL1.2 (ev "L1" "Pull complete" 0 0)).map
      (fun hp => hp.1.load (Current registeredL1.2 "L1").PhaseProgress) =
      some (some { N := 0, Total := 0, Completed := true }) := by
  decide

/-- C16, amended: `Layers()` returns a copy: the returned slice holds the tracker's layer
list, reads the same after a later `onEvent` call, and an assignment to one of its elements
leaves the tracker as it is, so a later `Layers()` call returns the same list. `Current(L)`
copies the phase and returns the tracker's own `*progress.Manual` pointers: read at once,
the returned `LayerState` shows the tracker's phase and counters; for a layer that has its
phase-progress counter, `onEvent` keeps both pointers, so the counters of a `LayerState`
obtained before the call, read after it, are the counters the tracker has after the call;
and an update made through such a pointer succeeds and is what the tracker reports
afterwards. -/
theorem reads_copy_or_live (extra : Nat → Nat) (h : Heap) (p : PullStatus)
    (hp : PointersOK h p) (hok : LayersOK h p) :
    (Layers extra h p).1.elems (Layers extra h p).2 = (abs h p).Layers ∧
    (∀ e h2 p2, onEvent extra (Layers extra h p).1 p e = some (h2, p2) →
      h2.elems (Layers extra h p).2 = (abs h p).Layers) ∧
    (∀ i v h', (Layers extra h p).1.store (Layers extra h p).2 i v = some h' →
      abs h' p = abs h p ∧
      (Layers extra h' p).1.elems (Layers extra h' p).2 = (abs h p).Layers) ∧
    (∀ L, (Current p L).Phase = ((abs h p).Current L).Phase ∧
      h.load (Current p L).PhaseProgress = ((abs h p).Current L).PhaseProgress ∧
      h.load (Current p L).DownloadProgress = ((abs h p).Current L).DownloadProgress) ∧
    (∀ L e h2 p2, (p.phaseProgress L).isSome → onEvent extra h p e = some (h2, p2) →
      (abs h p).onEvent e = some (abs h2 p2) ∧
      (Current p2 L).PhaseProgress = (Current p L).PhaseProgress ∧
      (Current p2 L).DownloadProgress = (Current p L).DownloadProgress ∧
      h2.load (Current p L).PhaseProgress = ((abs h2 p2).Current L).PhaseProgress ∧
      h2.load (Current p L).DownloadProgress = ((abs h2 p2).Current L).DownloadProgress ∧
      (h2.load (Current p L).PhaseProgress).isSome) ∧
    (∀ L f, (p.phaseProgress L).isSome →
      (((abs h p).Current L).PhaseProgress).isSome ∧
      ∃ h', h.modify (Current p L).PhaseProgress f = some h' ∧
        ((abs h' p).Current L).PhaseProgress =
          (((abs h p).Current L).PhaseProgress).map f) ∧
    (∀ L f h', h.modify (Current p L).DownloadProgress f = some h' →
      ((abs h' p).Current L).DownloadProgress =
        (((abs h p).Current L).DownloadProgress).map f) := by
  obtain ⟨hman, hlo, hhi, hold, hel⟩ := Layers_fresh extra h p hok
  have hne : ∀ s, p.layers = some s → (Layers extra h p).2.array ≠ s.array := by
    intro s hs
    exact Nat.ne_of_gt (Nat.lt_of_lt_of_le (hok s hs).1 hlo)
  rw [abs_Layers]
  refine ⟨hel, ?_, ?_, fun L => ⟨rfl, rfl, rfl⟩, ?_, ?_, fun L f h' hm => load_modify hm⟩
  · intro e h2 p2 ho
    obtain ⟨_, hkeep, _, _⟩ := onEvent_storage ho
    rw [← hel]
    simp only [Heap.elems]
    rw [hkeep _ hhi hne]
  · intro i v h' hst
    obtain ⟨hm', hlen', hkeep⟩ := store_storage hst
    have hold' : ∀ a, a < h.arrays.length → h'.arrays.getD a [] = h.arrays.getD a [] := by
      intro a ha
      rw [hkeep a (Nat.ne_of_lt (Nat.lt_of_lt_of_le ha hlo)), hold a ha]
    have hok' : LayersOK h' p := by
      intro s hs
      obtain ⟨h1, h2, h3⟩ := hok s hs
      refine ⟨?_, h2, ?_⟩
      · rw [hlen']
        exact Nat.lt_trans (Nat.lt_of_lt_of_le h1 hlo) hhi
      rw [hold' _ h1]
      exact h3
    have hsame : ∀ s, p.layers = some s → h'.elems s = h.elems s := by
      intro s hl
      simp only [Heap.elems]
      rw [hold' _ (hok s hl).1]
    have habs : abs h' p = abs h p := abs_of_same p (hm'.trans hman) hsame
    refine ⟨habs, ?_⟩
    rw [(Layers_fresh extra h' p hok').2.2.2.2, ← abs_Layers, habs, abs_Layers]
  · intro L e h2 p2 hL ho
    obtain ⟨_, _, hptr, _⟩ := onEvent_storage ho
    obtain ⟨h1, h2'⟩ := hptr L hL
    obtain ⟨r1, r2⟩ := onEvent_refines extra h p e hp hok
    obtain ⟨hp2, _⟩ := r2 h2 p2 ho
    rw [ho] at r1
    obtain ⟨a, ha⟩ := Option.isSome_iff_exists.1 hL
    obtain ⟨m, hm⟩ := load_some_of_lt h2 a (hp2.1 L a (h1.trans ha))
    refine ⟨r1.symm, by simp only [Current, h1], by simp only [Current, h2'], ?_, ?_, ?_⟩
    · show h2.load (p.phaseProgress L) = h2.load (p2.phaseProgress L)
      rw [h1]
    · show h2.load (p.downloadProgress L) = h2.load (p2.downloadProgress L)
      rw [h2']
    · show (h2.load (p.phaseProgress L)).isSome = true
      rw [ha, hm]
      rfl
  · intro L f hL
    obtain ⟨a, ha⟩ := Option.isSome_iff_exists.1 hL
    obtain ⟨m, hm⟩ := load_some_of_lt h a (hp.1 L a ha)
    obtain ⟨h1, hmod, hl1, _, _, _⟩ := modify_spec h a m f hm
    refine ⟨?_, h1, ?_, ?_⟩
    · show (h.load (p.phaseProgress L)).isSome = true
      rw [ha, hm]
      rfl
    · show h.modify (p.phaseProgress L) f = some h1
      rw [ha]
      exact hmod
    · show h1.load (p.phaseProgress L) = (h.load (p.phaseProgress L)).map f
      rw [ha, hl1, hm]
      rfl

/-- The session that defines `registeredL1` returns, and returns `registeredL1`. -/
theorem registeredL1_run :
    onEvents (fun n => n) emptyHeap newPullStatus
      [ev "img1" "Pulling from library/alpine" 0 0, ev "L1" "Waiting" 0 0] =
      some registeredL1 :=
  rfl

/-- Witness of C16, amended: the heap and tracker after the image id and the registration
of the layer "L1"; the `LayerState` of "L1" holds two allocated counters that read 0/0. -/
theorem reads_copy_or_live_witness :
    PointersOK registeredL1.1 registeredL1.2 ∧ LayersOK registeredL1.1 registeredL1.2 ∧
    (abs registeredL1.1 registeredL1.2).Layers = ["L1"] ∧
    registeredL1.1.load (Current registeredL1.2 "L1").PhaseProgress =
      some { N := 0, Total := 0, Completed := false } ∧
    registeredL1.1.load (Current registeredL1.2 "L1").DownloadProgress =
      some { N := 0, Total := 0, Completed := false } ∧
    ((Layers (fun n => n) registeredL1.1 registeredL1.2).1.elems
        (Layers (fun n => n) registeredL1.1 registeredL1.2).2 =
        (abs registeredL1.1 registeredL1.2).Layers ∧
    (∀ e h2 p2,
      onEvent (fun n => n) (Layers (fun n => n) registeredL1.1 registeredL1.2).1
        registeredL1.2 e = some (h2, p2) →
      h2.elems (Layers (fun n => n) registeredL1.1 registeredL1.2).2 =
        (abs registeredL1.1 registeredL1.2).Layers) ∧
    (∀ i v h',
      (Layers (fun n => n) registeredL1.1 registeredL1.2).1.store
        (Layers (fun n => n) registeredL1.1 registeredL1.2).2 i v = some h' →
      abs h' registeredL1.2 = abs registeredL1.1 registeredL1.2 ∧
      (Layers (fun n => n) h' registeredL1.2).1.elems
        (Layers (fun n => n) h' registeredL1.2).2 =
        (abs registeredL1.1 registeredL1.2).Layers) ∧
    (∀ L, (Current registeredL1.2 L).Phase =
        ((abs registeredL1.1 registeredL1.2).Current L).Phase ∧
      registeredL1.1.load (Current registeredL1.2 L).PhaseProgress =
        ((abs registeredL1.1 registeredL1.2).Current L).PhaseProgress ∧
      registeredL1.1.load (Current registeredL1.2 L).DownloadProgress =
        ((abs registeredL1.1 registeredL1.2).Current L).DownloadProgress) ∧
    (∀ L e h2 p2, (registeredL1.2.phaseProgress L).isSome →
      onEvent (fun n => n) registeredL1.1 registeredL1.2 e = some (h2, p2) →
      (abs registeredL1.1 registeredL1.2).onEvent e = some (abs h2 p2) ∧
      (Current p2 L).PhaseProgress = (Current registeredL1.2 L).PhaseProgress ∧
      (Current p2 L).DownloadProgress = (Current registeredL1.2 L).DownloadProgress ∧
      h2.load (Current registeredL1.2 L).PhaseProgress =
        ((abs h2 p2).Current L).PhaseProgress ∧
      h2.load (Current registeredL1.2 L).DownloadProgress =
        ((abs h2 p2).Current L).DownloadProgress ∧
      (h2.load (Current registeredL1.2 L).PhaseProgress).isSome) ∧
    (∀ L f, (registeredL1.2.phaseProgress L).isSome →
      (((abs registeredL1.1 registeredL1.2).Current L).PhaseProgress).isSome ∧
      ∃ h', registeredL1.1.modify (Current registeredL1.2 L).PhaseProgress f = some h' ∧
        ((abs h' registeredL1.2).Current L).PhaseProgress =
          (((abs registeredL1.1 registeredL1.2).Current L).PhaseProgress).map f) ∧
    (∀ L f h', registeredL1.1.modify (Current registeredL1.2 L).DownloadProgress f = some h' →
      ((abs h' registeredL1.2).Current L).DownloadProgress =
        (((abs registeredL1.1 registeredL1.2).Current L).DownloadProgress).map f)) :=
  have hinv := (onEvents_refines (fun n => n) _ emptyHeap newPullStatus PointersOK_new
    LayersOK_new).2 registeredL1.1 registeredL1.2 registeredL1_run
  ⟨hinv.1, hinv.2, by decide, by decide, by decide,
    reads_copy_or_live (fun n => n) registeredL1.1 registeredL1.2 hinv.1 hinv.2⟩

/-! ### The lock discipline -/

end Mem

end Docker
